import Mathlib

set_option maxRecDepth 8000
set_option maxHeartbeats 1000000

/- Shallow embedding of the segmentation and reassembly engine of the
   `stt` repository.  Planner positions are sample counts (naturals);
   the planner parameters `durS`, `ovS`, `mdS` are the sample-converted
   durations, exactly the values the Python code computes once with
   `int(duration * sample_rate)` before the loop runs. -/

/-- Absolute difference on naturals; models `abs(a - b)` on Python ints. -/
def pydist (a b : ℕ) : ℕ := (a - b) + (b - a)

/-- Models Python `min(a :: l, key=k)`: left fold keeping the first element
with the minimal key (strict improvement replaces the accumulator). -/
def minByFold {α κ : Type} [LinearOrder κ] (k : α → κ) (a : α) (l : List α) : α :=
  l.foldl (fun best b => if k b < k best then b else best) a

/-- `SmartAudioChunker.find_optimal_split_point` (scripts/smart_audio_chunker.py,
lines 108-138) and the identical `find_optimal_transcript_split_point`
(scripts/transcript_chunker.py, lines 306-337): keep the silence boundaries
within `maxDevS` samples of the arithmetic target and return the first one
closest to the target; with no qualifying boundary return the target itself. -/
def findOptimalSplitPoint (target : ℕ) (bnds : List ℕ) (maxDevS : ℕ) : ℕ :=
  match bnds.filter (fun b => decide (pydist b target ≤ maxDevS)) with
  | [] => target
  | v :: vs => minByFold (fun b => pydist b target) v vs

/-- One entry of the silence-aware chunk plan: the fields `start_sample`,
`actual_split_sample` (the no-overlap boundary) and `end_sample` of the
chunk dictionaries built in `split_audio_at_silence_boundaries`. -/
structure ChunkPlanEntry where
  index : ℕ
  start_sample : ℕ
  actual_split_sample : ℕ
  end_sample : ℕ
  deriving Repr, DecidableEq

/-- Failure of a planning run: `runaway` models the
"Too many chunks generated - possible infinite loop" exception;
`fuelOut` is an artefact of the fuel-indexed embedding and is proved
unreachable for the fuel the top-level planners pass. -/
inductive PlanError where
  | runaway : PlanError
  | fuelOut : PlanError
  deriving Repr, DecidableEq

/-- The no-overlap boundary chosen for the chunk starting at `s`: the file
end once the arithmetic target reaches it, otherwise the silence-snapped
split point (lines 168-179 of scripts/smart_audio_chunker.py). -/
def nextSplit (total durS mdS : ℕ) (bnds : List ℕ) (s : ℕ) : ℕ :=
  if total ≤ s + durS then total else findOptimalSplitPoint (s + durS) bnds mdS

/-- The materialized end of a chunk whose no-overlap boundary is `split`:
overlap added and clipped to the file end for every non-final chunk
(lines 181-185 of scripts/smart_audio_chunker.py). -/
def entryEnd (total ovS split : ℕ) : ℕ :=
  if split < total then min (split + ovS) total else split

/-- The planning loop of `SmartAudioChunker.split_audio_at_silence_boundaries`
(scripts/smart_audio_chunker.py, lines 164-232), also used by
`TranscriptAudioChunker.split_audio_for_transcription` with a different cap
(scripts/transcript_chunker.py, lines 362-454).  Arguments after the
configuration: current start sample, next chunk index, fuel.  The Python
code appends the chunk, increments the index and then raises on
`chunk_index > cap`; the appended list is discarded by the raise, so
checking the cap before consing yields the same observable result. -/
def splitLoop (total durS ovS mdS : ℕ) (bnds : List ℕ) (cap : ℕ) :
    ℕ → ℕ → ℕ → Except PlanError (List ChunkPlanEntry)
  | _, _, 0 => .error .fuelOut
  | s, idx, fuel + 1 =>
    if s < total then
      if cap < idx + 1 then .error .runaway
      else
        match splitLoop total durS ovS mdS bnds cap (nextSplit total durS mdS bnds s) (idx + 1) fuel with
        | .ok rest =>
          .ok (⟨idx, s, nextSplit total durS mdS bnds s,
                entryEnd total ovS (nextSplit total durS mdS bnds s)⟩ :: rest)
        | .error e => .error e
    else .ok []

/-- `SmartAudioChunker.split_audio_at_silence_boundaries`: chunk cap 1000. -/
def smartSplit (total durS ovS mdS : ℕ) (bnds : List ℕ) :
    Except PlanError (List ChunkPlanEntry) :=
  splitLoop total durS ovS mdS bnds 1000 0 0 1001

/-- `TranscriptAudioChunker.split_audio_for_transcription`: same loop body,
but the safety check on line 453 uses the cap 100, not 1000. -/
def transcriptSplit (total durS ovS mdS : ℕ) (bnds : List ℕ) :
    Except PlanError (List ChunkPlanEntry) :=
  splitLoop total durS ovS mdS bnds 100 0 0 101

/-- One entry of the sample-accurate plan
(`SampleAccurateAudioChunker.split_audio_with_perfect_overlap`): only
`start_sample` and `end_sample` are stored; the no-overlap boundary of a
non-final entry is implicitly `start_sample + chunkS`. -/
structure SampleChunkEntry where
  index : ℕ
  start_sample : ℕ
  end_sample : ℕ
  deriving Repr, DecidableEq

/-- The loop of `SampleAccurateAudioChunker.split_audio_with_perfect_overlap`
(scripts/audio_chunker_sample_accurate.py, lines 79-132): fixed stride
`chunkS` samples, overlap `ovS` samples added to every chunk but the last,
cap 1000 on the chunk count. -/
def sampleEnd (total chunkS ovS s : ℕ) : ℕ :=
  if s + chunkS < total then min (s + chunkS + ovS) total else total

def sampleLoop (total chunkS ovS : ℕ) : ℕ → ℕ → ℕ → Except PlanError (List SampleChunkEntry)
  | _, _, 0 => .error .fuelOut
  | s, idx, fuel + 1 =>
    if s < total then
      if 1000 < idx + 1 then .error .runaway
      else
        match sampleLoop total chunkS ovS (s + chunkS) (idx + 1) fuel with
        | .ok rest => .ok (⟨idx, s, sampleEnd total chunkS ovS s⟩ :: rest)
        | .error e => .error e
    else .ok []

/-- Top level of the sample-accurate chunker. -/
def sampleAccurateSplit (total chunkS ovS : ℕ) : Except PlanError (List SampleChunkEntry) :=
  sampleLoop total chunkS ovS 0 0 1001

instance {ε α : Type} [DecidableEq ε] [DecidableEq α] : DecidableEq (Except ε α) := fun x y =>
  match x, y with
  | .ok a, .ok b =>
    if h : a = b then .isTrue (by rw [h]) else .isFalse (by intro hc; cases hc; exact h rfl)
  | .error a, .error b =>
    if h : a = b then .isTrue (by rw [h]) else .isFalse (by intro hc; cases hc; exact h rfl)
  | .ok _, .error _ => .isFalse (by intro hc; cases hc)
  | .error _, .ok _ => .isFalse (by intro hc; cases hc)

/-- `audio_data[s:e]` on a frame list: the materialized slice of a chunk. -/
def chunkSliceAt {α : Type} (audio : List α) (s e : ℕ) : List α :=
  (audio.drop s).take (e - s)

/-- The materialized audio slice of a silence-aware plan entry. -/
def chunkSlice {α : Type} (audio : List α) (e : ChunkPlanEntry) : List α :=
  chunkSliceAt audio e.start_sample e.end_sample

/-- The materialized audio slice of a sample-accurate plan entry. -/
def chunkSliceSA {α : Type} (audio : List α) (e : SampleChunkEntry) : List α :=
  chunkSliceAt audio e.start_sample e.end_sample

/- ### Structural lemmas about the silence-aware planning loop -/

theorem splitLoop_ok_of_le {T d o m : ℕ} {B : List ℕ} {cap s idx fuel : ℕ}
    (hs : T ≤ s) : splitLoop T d o m B cap s idx (fuel + 1) = .ok [] := by
  simp [splitLoop, Nat.not_lt.2 hs]

theorem splitLoop_ok_cons {T d o m : ℕ} {B : List ℕ} {cap s idx fuel : ℕ}
    {e : ChunkPlanEntry} {rest : List ChunkPlanEntry}
    (h : splitLoop T d o m B cap s idx (fuel + 1) = .ok (e :: rest)) :
    s < T ∧ idx + 1 ≤ cap ∧
      e = ⟨idx, s, nextSplit T d m B s, entryEnd T o (nextSplit T d m B s)⟩ ∧
      splitLoop T d o m B cap (nextSplit T d m B s) (idx + 1) fuel = .ok rest := by
  by_cases hs : s < T
  · simp only [splitLoop, if_pos hs] at h
    by_cases hc : cap < idx + 1
    · rw [if_pos hc] at h; cases h
    · rw [if_neg hc] at h
      cases hrec : splitLoop T d o m B cap (nextSplit T d m B s) (idx + 1) fuel with
      | ok rest2 =>
        rw [hrec] at h
        injection h with h2
        injection h2 with h3 h4
        exact ⟨hs, Nat.not_lt.1 hc, h3.symm, by rw [h4]⟩
      | error e2 => rw [hrec] at h; cases h
  · rw [splitLoop_ok_of_le (Nat.not_lt.1 hs)] at h
    cases h

theorem splitLoop_ok_nil {T d o m : ℕ} {B : List ℕ} {cap s idx fuel : ℕ}
    (h : splitLoop T d o m B cap s idx (fuel + 1) = .ok []) : T ≤ s := by
  by_cases hs : s < T
  · simp only [splitLoop, if_pos hs] at h
    by_cases hc : cap < idx + 1
    · rw [if_pos hc] at h; cases h
    · rw [if_neg hc] at h
      cases hrec : splitLoop T d o m B cap (nextSplit T d m B s) (idx + 1) fuel with
      | ok rest2 => rw [hrec] at h; cases h
      | error e2 => rw [hrec] at h; cases h
  · exact Nat.not_lt.1 hs

theorem splitLoop_fuel_zero {T d o m : ℕ} {B : List ℕ} {cap s idx : ℕ} :
    splitLoop T d o m B cap s idx 0 = .error .fuelOut := rfl

/-- Decomposition of the Python `min(key=...)` fold: the returned element
occurs in the list, has a minimal key, and every element strictly before it
has a strictly larger key (first minimum wins). -/
theorem minByFold_decomp {α κ : Type} [LinearOrder κ] (k : α → κ) :
    ∀ (l : List α) (a : α), ∃ pre post, a :: l = pre ++ minByFold k a l :: post ∧
      (∀ x ∈ a :: l, k (minByFold k a l) ≤ k x) ∧
      (∀ x ∈ pre, k (minByFold k a l) < k x) := by
  intro l
  induction l with
  | nil =>
    intro a
    refine ⟨[], [], rfl, ?_, by simp⟩
    intro x hx
    cases hx with
    | head => exact le_refl _
    | tail _ hx2 => cases hx2
  | cons b bs ih =>
    intro a
    by_cases hba : k b < k a
    · have hstep : minByFold k a (b :: bs) = minByFold k b bs := by
        simp [minByFold, hba]
      obtain ⟨pre, post, hdec, hmin, hpre⟩ := ih b
      refine ⟨a :: pre, post, ?_, ?_, ?_⟩
      · rw [hstep, List.cons_append, ← hdec]
      · intro x hx
        rw [hstep]
        cases hx with
        | head => exact le_of_lt (lt_of_le_of_lt (hmin b (List.mem_cons_self b bs)) hba)
        | tail _ hx2 => exact hmin x hx2
      · intro x hx
        rw [hstep]
        cases hx with
        | head => exact lt_of_le_of_lt (hmin b (List.mem_cons_self b bs)) hba
        | tail _ hx2 => exact hpre x hx2
    · have hstep : minByFold k a (b :: bs) = minByFold k a bs := by
        simp [minByFold, hba]
      have hab : k a ≤ k b := le_of_not_lt hba
      obtain ⟨pre, post, hdec, hmin, hpre⟩ := ih a
      cases pre with
      | nil =>
        rw [List.nil_append] at hdec
        injection hdec with h1 h2
        refine ⟨[], b :: post, ?_, ?_, by simp⟩
        · rw [hstep, List.nil_append, ← h1, ← h2]
        · intro x hx
          rw [hstep]
          cases hx with
          | head => exact hmin a (List.mem_cons_self a bs)
          | tail _ hx2 =>
            cases hx2 with
            | head => exact le_trans (hmin a (List.mem_cons_self a bs)) hab
            | tail _ hx3 => exact hmin x (List.mem_cons_of_mem a hx3)
      | cons p pre2 =>
        rw [List.cons_append] at hdec
        injection hdec with h1 h2
        refine ⟨a :: b :: pre2, post, ?_, ?_, ?_⟩
        · rw [hstep]
          simp only [List.cons_append]
          rw [← h2]
        · intro x hx
          rw [hstep]
          cases hx with
          | head => exact hmin a (List.mem_cons_self a bs)
          | tail _ hx2 =>
            cases hx2 with
            | head => exact le_trans (hmin a (List.mem_cons_self a bs)) hab
            | tail _ hx3 => exact hmin x (List.mem_cons_of_mem a hx3)
        · have hpa : k (minByFold k a bs) < k a := h1 ▸ hpre p (List.mem_cons_self p pre2)
          intro x hx
          rw [hstep]
          cases hx with
          | head => exact hpa
          | tail _ hx2 =>
            cases hx2 with
            | head => exact lt_of_lt_of_le hpa hab
            | tail _ hx3 => exact hpre x (List.mem_cons_of_mem p hx3)

/-- The fold result is an element of the folded list. -/
theorem minByFold_mem {α κ : Type} [LinearOrder κ] (k : α → κ) (l : List α) (a : α) :
    minByFold k a l ∈ a :: l := by
  obtain ⟨pre, post, hdec, -, -⟩ := minByFold_decomp k l a
  rw [hdec]
  exact List.mem_append_right pre (List.mem_cons_self _ post)

/-- The chosen split point is either a silence boundary or the target. -/
theorem findOptimalSplitPoint_mem_or_target (t : ℕ) (B : List ℕ) (m : ℕ) :
    findOptimalSplitPoint t B m ∈ B ∨ findOptimalSplitPoint t B m = t := by
  unfold findOptimalSplitPoint
  cases hF : B.filter (fun b => decide (pydist b t ≤ m)) with
  | nil => right; rfl
  | cons v vs =>
    left
    have hmem : minByFold (fun b => pydist b t) v vs ∈ v :: vs := minByFold_mem _ _ _
    rw [← hF] at hmem
    exact List.mem_of_mem_filter hmem

/-- The selected split never exceeds the file end when all candidate
boundaries lie inside the file. -/
theorem nextSplit_le {T d m : ℕ} {B : List ℕ} (hB : ∀ b ∈ B, b ≤ T) (s : ℕ) :
    nextSplit T d m B s ≤ T := by
  unfold nextSplit
  by_cases h : T ≤ s + d
  · rw [if_pos h]
  · rw [if_neg h]
    cases findOptimalSplitPoint_mem_or_target (s + d) B m with
    | inl hmem => exact hB _ hmem
    | inr heq => rw [heq]; exact le_of_lt (Nat.lt_of_not_le h)

/-- Every entry of an emitted plan records a start inside the file, the
split chosen by the boundary search for that start, and the materialization
rule for its end sample. -/
theorem splitLoop_ok_entries {T d o m : ℕ} {B : List ℕ} {cap : ℕ} :
    ∀ (fuel : ℕ) {s idx : ℕ} {l : List ChunkPlanEntry},
      splitLoop T d o m B cap s idx fuel = .ok l →
      ∀ e ∈ l, e.start_sample < T ∧
        e.actual_split_sample = nextSplit T d m B e.start_sample ∧
        e.end_sample = entryEnd T o e.actual_split_sample := by
  intro fuel
  induction fuel with
  | zero => intro s idx l h; cases h
  | succ n ih =>
    intro s idx l h e he
    cases l with
    | nil => cases he
    | cons a rest =>
      obtain ⟨hs, -, ha, hrest⟩ := splitLoop_ok_cons h
      cases he with
      | head => subst ha; exact ⟨hs, rfl, rfl⟩
      | tail _ hmem => exact ih hrest e hmem

/-- Head of an emitted plan: it starts at the loop's start position with the
loop's first index. -/
theorem splitLoop_ok_head {T d o m : ℕ} {B : List ℕ} {cap s idx fuel : ℕ}
    {e : ChunkPlanEntry} {rest : List ChunkPlanEntry}
    (h : splitLoop T d o m B cap s idx fuel = .ok (e :: rest)) :
    e.start_sample = s ∧ e.index = idx := by
  cases fuel with
  | zero => cases h
  | succ n =>
    obtain ⟨-, -, ha, -⟩ := splitLoop_ok_cons h
    subst ha; exact ⟨rfl, rfl⟩

/-- Adjacent entries of an emitted plan: each entry starts exactly at the
previous entry's no-overlap split point, with consecutive indices. -/
theorem splitLoop_ok_chain {T d o m : ℕ} {B : List ℕ} {cap : ℕ} :
    ∀ (fuel : ℕ) {s idx : ℕ} {l : List ChunkPlanEntry},
      splitLoop T d o m B cap s idx fuel = .ok l →
      l.Chain' (fun a b => b.start_sample = a.actual_split_sample ∧ b.index = a.index + 1) := by
  intro fuel
  induction fuel with
  | zero => intro s idx l h; cases h
  | succ n ih =>
    intro s idx l h
    cases l with
    | nil => exact List.chain'_nil
    | cons a rest =>
      obtain ⟨hs, hcap, ha, hrest⟩ := splitLoop_ok_cons h
      cases rest with
      | nil => exact List.chain'_singleton a
      | cons b rest2 =>
        refine List.chain'_cons.2 ⟨?_, ih hrest⟩
        obtain ⟨hb1, hb2⟩ := splitLoop_ok_head hrest
        subst ha
        exact ⟨hb1, hb2⟩

/-- The final entry of an emitted plan splits exactly at the file end. -/
theorem splitLoop_ok_last {T d o m : ℕ} {B : List ℕ} {cap : ℕ}
    (hB : ∀ b ∈ B, b ≤ T) :
    ∀ (fuel : ℕ) {s idx : ℕ} {l : List ChunkPlanEntry},
      splitLoop T d o m B cap s idx fuel = .ok l →
      ∀ (hne : l ≠ []), (l.getLast hne).actual_split_sample = T := by
  intro fuel
  induction fuel with
  | zero => intro s idx l h; cases h
  | succ n ih =>
    intro s idx l h hne
    cases l with
    | nil => exact absurd rfl hne
    | cons a rest =>
      obtain ⟨hs, hcap, ha, hrest⟩ := splitLoop_ok_cons h
      cases rest with
      | nil =>
        have hTle : T ≤ nextSplit T d m B s := by
          cases n with
          | zero => cases hrest
          | succ n2 => exact splitLoop_ok_nil hrest
        have hle : nextSplit T d m B s ≤ T := nextSplit_le hB s
        simp only [List.getLast_singleton]
        subst ha
        exact le_antisymm hle hTle
      | cons b rest2 =>
        rw [List.getLast_cons (by simp : (b :: rest2) ≠ [])]
        exact ih hrest (by simp)

/-- An emitted plan never exceeds the cap: a run that would emit a
`cap + 1`-st chunk raises the runaway error instead. -/
theorem splitLoop_ok_length {T d o m : ℕ} {B : List ℕ} {cap : ℕ} :
    ∀ (fuel : ℕ) {s idx : ℕ} {l : List ChunkPlanEntry},
      idx ≤ cap → splitLoop T d o m B cap s idx fuel = .ok l →
      l.length + idx ≤ cap := by
  intro fuel
  induction fuel with
  | zero => intro s idx l hidx h; cases h
  | succ n ih =>
    intro s idx l hidx h
    cases l with
    | nil => simpa using hidx
    | cons a rest =>
      obtain ⟨hs, hcap, ha, hrest⟩ := splitLoop_ok_cons h
      have := ih hcap hrest
      simp only [List.length_cons] at this ⊢
      omega

/-- With enough fuel the loop never reports fuel exhaustion: the runaway
cap always fires first.  Hence the fuel-indexed embedding is exact. -/
theorem splitLoop_no_fuelOut {T d o m : ℕ} {B : List ℕ} {cap : ℕ} :
    ∀ (fuel : ℕ) {s idx : ℕ}, idx ≤ cap → cap < fuel + idx →
      splitLoop T d o m B cap s idx fuel ≠ .error .fuelOut := by
  intro fuel
  induction fuel with
  | zero => intro s idx hidx hfuel; omega
  | succ n ih =>
    intro s idx hidx hfuel h
    by_cases hs : s < T
    · simp only [splitLoop, if_pos hs] at h
      by_cases hc : cap < idx + 1
      · rw [if_pos hc] at h; cases h
      · rw [if_neg hc] at h
        cases hrec : splitLoop T d o m B cap (nextSplit T d m B s) (idx + 1) n with
        | ok rest => rw [hrec] at h; cases h
        | error e2 =>
          rw [hrec] at h
          injection h with h2
          exact ih (Nat.not_lt.1 hc) (by omega) (h2 ▸ hrec)
    · rw [splitLoop_ok_of_le (Nat.not_lt.1 hs)] at h; cases h

/- ### Structural lemmas about the sample-accurate planning loop -/

theorem sampleLoop_ok_of_le {T c o : ℕ} {s idx fuel : ℕ} (hs : T ≤ s) :
    sampleLoop T c o s idx (fuel + 1) = .ok [] := by
  simp [sampleLoop, Nat.not_lt.2 hs]

theorem sampleLoop_ok_cons {T c o : ℕ} {s idx fuel : ℕ}
    {e : SampleChunkEntry} {rest : List SampleChunkEntry}
    (h : sampleLoop T c o s idx (fuel + 1) = .ok (e :: rest)) :
    s < T ∧ idx + 1 ≤ 1000 ∧ e = ⟨idx, s, sampleEnd T c o s⟩ ∧
      sampleLoop T c o (s + c) (idx + 1) fuel = .ok rest := by
  by_cases hs : s < T
  · simp only [sampleLoop, if_pos hs] at h
    by_cases hc : 1000 < idx + 1
    · rw [if_pos hc] at h; cases h
    · rw [if_neg hc] at h
      cases hrec : sampleLoop T c o (s + c) (idx + 1) fuel with
      | ok rest2 =>
        rw [hrec] at h
        injection h with h2
        injection h2 with h3 h4
        exact ⟨hs, Nat.not_lt.1 hc, h3.symm, by rw [h4]⟩
      | error e2 => rw [hrec] at h; cases h
  · rw [sampleLoop_ok_of_le (Nat.not_lt.1 hs)] at h
    cases h

theorem sampleLoop_ok_nil {T c o : ℕ} {s idx fuel : ℕ}
    (h : sampleLoop T c o s idx (fuel + 1) = .ok []) : T ≤ s := by
  by_cases hs : s < T
  · simp only [sampleLoop, if_pos hs] at h
    by_cases hc : 1000 < idx + 1
    · rw [if_pos hc] at h; cases h
    · rw [if_neg hc] at h
      cases hrec : sampleLoop T c o (s + c) (idx + 1) fuel with
      | ok rest2 => rw [hrec] at h; cases h
      | error e2 => rw [hrec] at h; cases h
  · exact Nat.not_lt.1 hs

theorem sampleLoop_ok_entries {T c o : ℕ} :
    ∀ (fuel : ℕ) {s idx : ℕ} {l : List SampleChunkEntry},
      sampleLoop T c o s idx fuel = .ok l →
      ∀ e ∈ l, e.start_sample < T ∧ e.end_sample = sampleEnd T c o e.start_sample := by
  intro fuel
  induction fuel with
  | zero => intro s idx l h; cases h
  | succ n ih =>
    intro s idx l h e he
    cases l with
    | nil => cases he
    | cons a rest =>
      obtain ⟨hs, -, ha, hrest⟩ := sampleLoop_ok_cons h
      cases he with
      | head => subst ha; exact ⟨hs, rfl⟩
      | tail _ hmem => exact ih hrest e hmem

theorem sampleLoop_ok_head {T c o : ℕ} {s idx fuel : ℕ}
    {e : SampleChunkEntry} {rest : List SampleChunkEntry}
    (h : sampleLoop T c o s idx fuel = .ok (e :: rest)) :
    e.start_sample = s ∧ e.index = idx := by
  cases fuel with
  | zero => cases h
  | succ n =>
    obtain ⟨-, -, ha, -⟩ := sampleLoop_ok_cons h
    subst ha; exact ⟨rfl, rfl⟩

theorem sampleLoop_ok_chain {T c o : ℕ} :
    ∀ (fuel : ℕ) {s idx : ℕ} {l : List SampleChunkEntry},
      sampleLoop T c o s idx fuel = .ok l →
      l.Chain' (fun a b => b.start_sample = a.start_sample + c ∧ b.index = a.index + 1) := by
  intro fuel
  induction fuel with
  | zero => intro s idx l h; cases h
  | succ n ih =>
    intro s idx l h
    cases l with
    | nil => exact List.chain'_nil
    | cons a rest =>
      obtain ⟨hs, hcap, ha, hrest⟩ := sampleLoop_ok_cons h
      cases rest with
      | nil => exact List.chain'_singleton a
      | cons b rest2 =>
        refine List.chain'_cons.2 ⟨?_, ih hrest⟩
        obtain ⟨hb1, hb2⟩ := sampleLoop_ok_head hrest
        subst ha
        exact ⟨hb1, hb2⟩

theorem sampleLoop_ok_last {T c o : ℕ} :
    ∀ (fuel : ℕ) {s idx : ℕ} {l : List SampleChunkEntry},
      sampleLoop T c o s idx fuel = .ok l →
      ∀ (hne : l ≠ []), (l.getLast hne).end_sample = T ∧
        T ≤ (l.getLast hne).start_sample + c := by
  intro fuel
  induction fuel with
  | zero => intro s idx l h; cases h
  | succ n ih =>
    intro s idx l h hne
    cases l with
    | nil => exact absurd rfl hne
    | cons a rest =>
      obtain ⟨hs, hcap, ha, hrest⟩ := sampleLoop_ok_cons h
      cases rest with
      | nil =>
        have hTle : T ≤ s + c := by
          cases n with
          | zero => cases hrest
          | succ n2 => exact sampleLoop_ok_nil hrest
        simp only [List.getLast_singleton]
        subst ha
        constructor
        · unfold sampleEnd
          rw [if_neg (Nat.not_lt.2 hTle)]
        · exact hTle
      | cons b rest2 =>
        rw [List.getLast_cons (by simp : (b :: rest2) ≠ [])]
        exact ih hrest (by simp)

/-- Slices of one source buffer agree on their overlap: the part of the
slice `[aS, aE)` from its split point `aSp` on equals the first
`aE - aSp` samples of the slice `[bS, bE)` starting at `bS = aSp`. -/
theorem chunkSliceAt_overlap {α : Type} (audio : List α) {aS aSp aE bS bE : ℕ}
    (h1 : aS ≤ aSp) (h2 : aSp ≤ aE) (h3 : aE ≤ bE) (h4 : bS = aSp) :
    (chunkSliceAt audio aS aE).drop (aSp - aS) =
      (chunkSliceAt audio bS bE).take (aE - aSp) := by
  subst h4
  unfold chunkSliceAt
  rw [List.drop_take, List.drop_drop, List.take_take]
  have e1 : aS + (bS - aS) = bS := by omega
  have e2 : aE - aS - (bS - aS) = aE - bS := by omega
  have e3 : min (aE - bS) (bE - bS) = aE - bS := by omega
  rw [e1, e2, e3]

/-- C2: in every emitted plan, every entry but the last has
`end_sample = min(target_split_sample + overlap_samples, total_samples)`
while the last entry ends exactly at `total_samples` with no added overlap
(its split point is the file end); and in the concrete scenario
total=441000 samples, chunk=176400 samples (4 s at 44100 Hz), overlap=44100
samples, no silence candidates, the planner emits exactly the three chunks
[0,220500), [176400,396900), [352800,441000) and chunk0's samples
176400..220500 equal chunk1's samples 0..44100 equal the source's samples
176400..220500. -/
theorem c2_materialization_rule :
    (∀ T d o m : ℕ, ∀ B : List ℕ, ∀ plan : List ChunkPlanEntry,
      (∀ b ∈ B, b ≤ T) → smartSplit T d o m B = .ok plan →
      ∀ i : ℕ, ∀ hi : i < plan.length,
        (i + 1 < plan.length →
          (plan.get ⟨i, hi⟩).actual_split_sample < T ∧
          (plan.get ⟨i, hi⟩).end_sample =
            min ((plan.get ⟨i, hi⟩).actual_split_sample + o) T) ∧
        (i + 1 = plan.length →
          (plan.get ⟨i, hi⟩).actual_split_sample = T ∧
          (plan.get ⟨i, hi⟩).end_sample = T)) ∧
    (∀ T c o : ℕ, ∀ plan : List SampleChunkEntry,
      sampleAccurateSplit T c o = .ok plan →
      ∀ i : ℕ, ∀ hi : i < plan.length,
        (i + 1 < plan.length →
          (plan.get ⟨i, hi⟩).start_sample + c < T ∧
          (plan.get ⟨i, hi⟩).end_sample =
            min ((plan.get ⟨i, hi⟩).start_sample + c + o) T) ∧
        (i + 1 = plan.length → (plan.get ⟨i, hi⟩).end_sample = T)) ∧
    sampleAccurateSplit 441000 176400 44100 =
      .ok [⟨0, 0, 220500⟩, ⟨1, 176400, 396900⟩, ⟨2, 352800, 441000⟩] ∧
    (∀ (α : Type) (audio : List α), audio.length = 441000 →
      (chunkSliceAt audio 0 220500).drop 176400 =
        (chunkSliceAt audio 176400 396900).take 44100 ∧
      (chunkSliceAt audio 0 220500).drop 176400 = chunkSliceAt audio 176400 220500) := by
  refine ⟨?_, ?_, by decide, ?_⟩
  · intro T d o m B plan hB hok i hi
    have hent := splitLoop_ok_entries 1001 hok _ (plan.get_mem i hi)
    constructor
    · intro hnl
      have hch := (List.chain'_iff_get.1 (splitLoop_ok_chain 1001 hok)) i (by omega)
      have hent2 := splitLoop_ok_entries 1001 hok _ (plan.get_mem (i + 1) hnl)
      have hlt : (plan.get ⟨i, hi⟩).actual_split_sample < T := by
        rw [← hch.1]; exact hent2.1
      refine ⟨hlt, ?_⟩
      rw [hent.2.2, hent.2.1, ← hent.2.1]
      unfold entryEnd
      rw [if_pos hlt]
    · intro hl
      have hne : plan ≠ [] := by
        intro hc; rw [hc] at hl; simp at hl
      have hlast := splitLoop_ok_last (B := B) hB 1001 hok hne
      rw [List.getLast_eq_get] at hlast
      have hg : plan.get ⟨plan.length - 1, by omega⟩ = plan.get ⟨i, hi⟩ := by
        congr 1
        simp only [Fin.mk.injEq]
        omega
      rw [hg] at hlast
      refine ⟨hlast, ?_⟩
      rw [hent.2.2, hent.2.1, ← hent.2.1, hlast]
      unfold entryEnd
      rw [if_neg (lt_irrefl T)]
  · intro T c o plan hok i hi
    have hent := sampleLoop_ok_entries 1001 hok _ (plan.get_mem i hi)
    constructor
    · intro hnl
      have hch := (List.chain'_iff_get.1 (sampleLoop_ok_chain 1001 hok)) i (by omega)
      have hent2 := sampleLoop_ok_entries 1001 hok _ (plan.get_mem (i + 1) hnl)
      have hlt : (plan.get ⟨i, hi⟩).start_sample + c < T := by
        rw [← hch.1]; exact hent2.1
      refine ⟨hlt, ?_⟩
      rw [hent.2]
      unfold sampleEnd
      rw [if_pos hlt]
    · intro hl
      have hne : plan ≠ [] := by
        intro hc; rw [hc] at hl; simp at hl
      have hlast := sampleLoop_ok_last 1001 hok hne
      rw [List.getLast_eq_get] at hlast
      have hg : plan.get ⟨plan.length - 1, by omega⟩ = plan.get ⟨i, hi⟩ := by
        congr 1
        simp only [Fin.mk.injEq]
        omega
      rw [hg] at hlast
      exact hlast.1
  · intro α audio hlen
    constructor
    · have := chunkSliceAt_overlap audio
        (by omega : (0 : ℕ) ≤ 176400) (by omega : (176400 : ℕ) ≤ 220500)
        (by omega : (220500 : ℕ) ≤ 396900) rfl
      norm_num at this
      exact this
    · unfold chunkSliceAt
      rw [List.drop_take, List.drop_drop]

/-- Witness for C2: concrete plans emitted by both planners satisfying the
hypotheses, and a concrete 441000-sample buffer for the slice identity. -/
theorem c2_materialization_rule_witness :
    (∀ b ∈ ([] : List ℕ), b ≤ 3) ∧
    smartSplit 3 2 1 0 [] = .ok [⟨0, 0, 2, 3⟩, ⟨1, 2, 3, 3⟩] ∧
    sampleAccurateSplit 5 2 1 = .ok [⟨0, 0, 3⟩, ⟨1, 2, 5⟩, ⟨2, 4, 5⟩] ∧
    (List.replicate 441000 (0 : ℕ)).length = 441000 ∧
    (∀ i : ℕ, ∀ hi : i < ([⟨0, 0, 2, 3⟩, ⟨1, 2, 3, 3⟩] : List ChunkPlanEntry).length,
      (i + 1 < ([⟨0, 0, 2, 3⟩, ⟨1, 2, 3, 3⟩] : List ChunkPlanEntry).length →
        (([⟨0, 0, 2, 3⟩, ⟨1, 2, 3, 3⟩] : List ChunkPlanEntry).get ⟨i, hi⟩).actual_split_sample < 3 ∧
        (([⟨0, 0, 2, 3⟩, ⟨1, 2, 3, 3⟩] : List ChunkPlanEntry).get ⟨i, hi⟩).end_sample =
          min ((([⟨0, 0, 2, 3⟩, ⟨1, 2, 3, 3⟩] : List ChunkPlanEntry).get ⟨i, hi⟩).actual_split_sample + 1) 3) ∧
      (i + 1 = ([⟨0, 0, 2, 3⟩, ⟨1, 2, 3, 3⟩] : List ChunkPlanEntry).length →
        (([⟨0, 0, 2, 3⟩, ⟨1, 2, 3, 3⟩] : List ChunkPlanEntry).get ⟨i, hi⟩).actual_split_sample = 3 ∧
        (([⟨0, 0, 2, 3⟩, ⟨1, 2, 3, 3⟩] : List ChunkPlanEntry).get ⟨i, hi⟩).end_sample = 3)) ∧
    ((chunkSliceAt (List.replicate 441000 (0 : ℕ)) 0 220500).drop 176400 =
      (chunkSliceAt (List.replicate 441000 (0 : ℕ)) 176400 396900).take 44100 ∧
     (chunkSliceAt (List.replicate 441000 (0 : ℕ)) 0 220500).drop 176400 =
      chunkSliceAt (List.replicate 441000 (0 : ℕ)) 176400 220500) :=
  ⟨by simp, by decide, by decide, List.length_replicate 441000 0,
   c2_materialization_rule.1 3 2 1 0 [] [⟨0, 0, 2, 3⟩, ⟨1, 2, 3, 3⟩] (by simp) (by decide),
   c2_materialization_rule.2.2.2 ℕ (List.replicate 441000 (0 : ℕ))
     (List.length_replicate 441000 0)⟩

/-- C8 counterexample: on a 102-sample input with a one-sample stride and no
silence candidates, the transcription planning loop raises its runaway error
even though the complete plan has only 102 chunks (the smart audio chunker,
whose cap is 1000, emits it): the transcript chunker's hard cap is 100, not
the claimed 1000. -/
theorem c8_cap_counterexample :
    transcriptSplit 102 1 0 0 [] = .error .runaway ∧
    (smartSplit 102 1 0 0 []).toOption.map List.length = some 102 := by
  constructor
  · decide
  · decide

/-- C8 (amended): every planning run terminates, either emitting a complete
plan bounded by the loop's hard cap or failing with the runaway error; the
fuel bound of the embedding is never the reason a run stops.  The cap is
1000 for the smart audio chunker and 100 for the transcript chunker. -/
theorem c8_runaway_guard :
    ∀ T d o m : ℕ, ∀ B : List ℕ,
      smartSplit T d o m B ≠ .error .fuelOut ∧
      transcriptSplit T d o m B ≠ .error .fuelOut ∧
      (∀ plan, smartSplit T d o m B = .ok plan → plan.length ≤ 1000) ∧
      (∀ plan, transcriptSplit T d o m B = .ok plan → plan.length ≤ 100) := by
  intro T d o m B
  refine ⟨?_, ?_, ?_, ?_⟩
  · exact splitLoop_no_fuelOut 1001 (by omega) (by omega)
  · exact splitLoop_no_fuelOut 101 (by omega) (by omega)
  · intro plan h
    have := splitLoop_ok_length 1001 (by omega) h
    omega
  · intro plan h
    have := splitLoop_ok_length 101 (by omega) h
    omega

/-- Witness for C8: a concrete input on which both planners emit a plan,
with the emitted lengths inside the caps. -/
theorem c8_runaway_guard_witness :
    smartSplit 3 2 1 0 [] = .ok [⟨0, 0, 2, 3⟩, ⟨1, 2, 3, 3⟩] ∧
    ([⟨0, 0, 2, 3⟩, ⟨1, 2, 3, 3⟩] : List ChunkPlanEntry).length ≤ 1000 ∧
    transcriptSplit 3 2 1 0 [] = .ok [⟨0, 0, 2, 3⟩, ⟨1, 2, 3, 3⟩] ∧
    ([⟨0, 0, 2, 3⟩, ⟨1, 2, 3, 3⟩] : List ChunkPlanEntry).length ≤ 100 :=
  ⟨by decide, (c8_runaway_guard 3 2 1 0 []).2.2.1 _ (by decide), by decide,
   (c8_runaway_guard 3 2 1 0 []).2.2.2 _ (by decide)⟩

/- ### Audio reassembly (scripts/audio_stitcher.py, scripts/audio_chunker.py)

A processed chunk file is modeled by its decoded contents: sample rate,
channel count, and the frame rows of the `always_2d` array.  Sample values
are rationals; the float fade coefficients `np.linspace(0, 1, n)` are
modeled by the exact rationals `j / (n - 1)`. -/

structure AudioChunk where
  sr : ℕ
  channels : ℕ
  frames : List (List ℚ)
  deriving Repr, DecidableEq

inductive StitchError where
  | noChunks : StitchError
  | noData : StitchError
  | shapeMismatch : StitchError
  deriving Repr, DecidableEq

/-- `np.linspace(0, 1, n)[j]`: 0 for the singleton ramp, else `j / (n-1)`. -/
def linCoef (j n : ℕ) : ℚ := if n = 1 then 0 else (j : ℚ) / ((n : ℚ) - 1)

/-- Scale the first `n` frames by the linear fade-in ramp (all channels). -/
def fadeInFrames (n : ℕ) (fs : List (List ℚ)) : List (List ℚ) :=
  fs.mapIdx (fun j row => if j < n then row.map (fun x => x * linCoef j n) else row)

/-- The per-chunk processing of `AudioStitcher._stitch_ml_chunks_no_crossfade`
for every chunk after the first: drop `overlap_duration * sr` leading frames,
then fade in over `min(int(50/1000 * sr), len)` frames. -/
def trimFade (ov : ℕ) (c : AudioChunk) : List (List ℚ) :=
  fadeInFrames (min (c.sr * 50 / 1000) (c.frames.drop (ov * c.sr)).length)
    (c.frames.drop (ov * c.sr))

/-- The `stitched_data` blocks appended for the chunks after the first:
a chunk is skipped entirely when it is not longer than the overlap
(lines 119-135 of scripts/audio_stitcher.py).  Each block carries its
width (channel count) for the `np.vstack` shape check. -/
def stitchBlocks (ov : ℕ) : List AudioChunk → List (ℕ × List (List ℚ))
  | [] => []
  | c :: cs =>
    (if ov * c.sr < c.frames.length then [(c.channels, trimFade ov c)] else []) ++
      stitchBlocks ov cs

/-- `AudioStitcher._stitch_ml_chunks_no_crossfade` (lines 79-153): the first
chunk is kept whole, later chunks are trimmed and faded, and `np.vstack`
concatenates the blocks, failing if any two blocks disagree in width.  A
sample-rate disagreement is only logged, never an error.  The output sample
rate is the first chunk's. -/
def stitchMLNoCrossfade (ov : ℕ) (chunks : List AudioChunk) : Except StitchError AudioChunk :=
  match chunks with
  | [] => .error .noData
  | c0 :: rest =>
    let blocks := (c0.channels, c0.frames) :: stitchBlocks ov rest
    if blocks.all (fun b => decide (b.1 = c0.channels)) then
      .ok ⟨c0.sr, c0.channels, (blocks.map (fun b => b.2)).flatten⟩
    else .error .shapeMismatch

/-- `AudioStitcher.stitch_chunks_with_crossfade` (lines 45-77): empty input
raises, a single chunk is copied unchanged, several chunks go through the
no-crossfade trim-and-fade path. -/
def stitchChunksTrimFade (ov : ℕ) (chunks : List AudioChunk) : Except StitchError AudioChunk :=
  match chunks with
  | [] => .error .noChunks
  | [x] => .ok x
  | _ => stitchMLNoCrossfade ov chunks

/-- `AudioChunker.stitch_chunks_with_crossfade` (scripts/audio_chunker.py,
lines 156-199): a single chunk is copied unchanged; any other input is
handed to the external ffmpeg crossfade invocation, modeled by the
parameter `ext`. -/
def stitchChunksCrossfade (ext : List AudioChunk → Except StitchError AudioChunk)
    (chunks : List AudioChunk) : Except StitchError AudioChunk :=
  match chunks with
  | [x] => .ok x
  | other => ext other

theorem fadeInFrames_length (n : ℕ) (fs : List (List ℚ)) :
    (fadeInFrames n fs).length = fs.length := by
  simp [fadeInFrames]

theorem trimFade_length (ov : ℕ) (c : AudioChunk) :
    (trimFade ov c).length = c.frames.length - ov * c.sr := by
  simp [trimFade, fadeInFrames_length]

/-- A chunk not longer than the overlap contributes an empty block either
way: the skip in the code equals trimming everything away. -/
theorem trimFade_of_short (ov : ℕ) (c : AudioChunk)
    (h : c.frames.length ≤ ov * c.sr) : trimFade ov c = [] := by
  unfold trimFade
  rw [List.drop_eq_nil_of_le h]
  rfl

/-- The frames appended after the first chunk are exactly the concatenated
trim-and-fade results of the later chunks. -/
theorem stitchBlocks_join (ov : ℕ) (rest : List AudioChunk) :
    ((stitchBlocks ov rest).map (fun b => b.2)).flatten =
      (rest.map (fun c => trimFade ov c)).flatten := by
  induction rest with
  | nil => rfl
  | cons c cs ih =>
    by_cases h : ov * c.sr < c.frames.length
    · simp only [stitchBlocks, if_pos h, List.singleton_append, List.map_cons,
        List.flatten_cons, ih]
    · simp only [stitchBlocks, if_neg h, List.nil_append, List.map_cons, List.flatten_cons, ih,
        trimFade_of_short ov c (Nat.not_lt.1 h)]

theorem stitchBlocks_channels (ov ch : ℕ) (rest : List AudioChunk)
    (hr : ∀ c ∈ rest, c.channels = ch) :
    ∀ b ∈ stitchBlocks ov rest, b.1 = ch := by
  induction rest with
  | nil => intro b hb; cases hb
  | cons c cs ih =>
    intro b hb
    simp only [stitchBlocks] at hb
    rcases List.mem_append.1 hb with h1 | h2
    · by_cases h : ov * c.sr < c.frames.length
      · rw [if_pos h] at h1
        cases h1 with
        | head => exact hr c (List.mem_cons_self c cs)
        | tail _ h3 => cases h3
      · rw [if_neg h] at h1; cases h1
    · exact ih (fun x hx => hr x (List.mem_cons_of_mem c hx)) b h2

/-- C10: both audio reassembly strategies satisfy the identity contract on a
single chunk: `reassemble([X]) == X` (the chunk is copied unchanged). -/
theorem c10_single_chunk_identity :
    ∀ (ov : ℕ) (x : AudioChunk) (ext : List AudioChunk → Except StitchError AudioChunk),
      stitchChunksTrimFade ov [x] = .ok x ∧ stitchChunksCrossfade ext [x] = .ok x := by
  intro ov x ext
  exact ⟨rfl, rfl⟩

/-- C3: on a non-empty chunk list sharing one sample rate and channel count,
the trim-and-fade reassembler keeps chunk 0 whole and concatenates, for
every later chunk, exactly its frames after the leading `overlap_samples`
(scaled only by the fixed 50 ms fade-in ramp), so the output frame count is
`frames(chunk 0) + Σ (frames(chunk k) - overlap_samples)` (truncated
subtraction: a chunk no longer than the overlap contributes nothing), and
the output keeps the shared format. -/
theorem c3_trim_and_fade_reassembly :
    ∀ (ov sr ch : ℕ) (c0 : AudioChunk) (rest : List AudioChunk),
      (∀ c ∈ c0 :: rest, c.sr = sr) → (∀ c ∈ c0 :: rest, c.channels = ch) →
      ∃ out, stitchMLNoCrossfade ov (c0 :: rest) = .ok out ∧
        out.frames = c0.frames ++ (rest.map (fun c => trimFade ov c)).flatten ∧
        out.frames.length =
          c0.frames.length + (rest.map (fun c => c.frames.length - ov * sr)).sum ∧
        out.sr = sr ∧ out.channels = ch := by
  intro ov sr ch c0 rest hsr hch
  have hch0 : c0.channels = ch := hch c0 (List.mem_cons_self _ _)
  have hall : (((c0.channels, c0.frames) :: stitchBlocks ov rest).all
      (fun b => decide (b.1 = c0.channels))) = true := by
    rw [List.all_eq_true]
    intro b hb
    cases hb with
    | head => simp
    | tail _ h2 =>
      have hb1 := stitchBlocks_channels ov ch rest
        (fun c hc => hch c (List.mem_cons_of_mem _ hc)) b h2
      simp [hb1, hch0]
  refine ⟨⟨c0.sr, c0.channels,
      (((c0.channels, c0.frames) :: stitchBlocks ov rest).map (fun b => b.2)).flatten⟩,
    ?_, ?_, ?_, hsr c0 (List.mem_cons_self _ _), hch0⟩
  · simp only [stitchMLNoCrossfade]
    rw [if_pos hall]
  · simp only [List.map_cons, List.flatten_cons, stitchBlocks_join]
  · simp only [List.map_cons, List.flatten_cons, stitchBlocks_join, List.length_append,
      List.length_flatten, List.map_map]
    congr 1
    apply congrArg List.sum
    apply List.map_congr_left
    intro c hc
    simp only [Function.comp_apply, trimFade_length]
    rw [hsr c (List.mem_cons_of_mem _ hc)]

/-- Witness for C3: two 1-channel chunks at 2 Hz with a 1 s overlap. -/
theorem c3_trim_and_fade_reassembly_witness :
    (∀ c ∈ [(⟨2, 1, [[1], [2], [3]]⟩ : AudioChunk), ⟨2, 1, [[2], [3], [4], [5]]⟩], c.sr = 2) ∧
    (∀ c ∈ [(⟨2, 1, [[1], [2], [3]]⟩ : AudioChunk), ⟨2, 1, [[2], [3], [4], [5]]⟩], c.channels = 1) ∧
    (∃ out, stitchMLNoCrossfade 1 [⟨2, 1, [[1], [2], [3]]⟩, ⟨2, 1, [[2], [3], [4], [5]]⟩] = .ok out ∧
      out.frames = [[1], [2], [3]] ++
        ([(⟨2, 1, [[2], [3], [4], [5]]⟩ : AudioChunk)].map (fun c => trimFade 1 c)).flatten ∧
      out.frames.length = 3 + ([(⟨2, 1, [[2], [3], [4], [5]]⟩ : AudioChunk)].map
        (fun c => c.frames.length - 1 * 2)).sum ∧
      out.sr = 2 ∧ out.channels = 1) :=
  ⟨by decide, by decide,
   c3_trim_and_fade_reassembly 1 2 1 ⟨2, 1, [[1], [2], [3]]⟩ [⟨2, 1, [[2], [3], [4], [5]]⟩]
     (by decide) (by decide)⟩

/-- C6 counterexample: a trim-and-fade reassembly call whose two input
chunks disagree on sample rate (2 Hz vs 1 Hz) completes and produces an
output artifact instead of failing with a FormatMismatch error. -/
theorem c6_sample_rate_mismatch_counterexample :
    stitchChunksTrimFade 2 [⟨2, 1, [[1], [2]]⟩, ⟨1, 1, [[3], [4], [5]]⟩] =
      .ok ⟨2, 1, [[1], [2], [5]]⟩ ∧
    (⟨2, 1, [[1], [2]]⟩ : AudioChunk).sr ≠ (⟨1, 1, [[3], [4], [5]]⟩ : AudioChunk).sr := by
  constructor
  · decide
  · decide

/-- C6 (amended): the reassembler performs no format check.  A sample-rate
disagreement is only logged: whenever the chunks agree on channel count the
trim-and-fade call succeeds whatever their sample rates, emitting the first
chunk's rate.  Only a channel-count disagreement between surviving blocks
fails, via the concatenation shape check, not a dedicated FormatMismatch. -/
theorem c6_no_format_check :
    (∀ (ov : ℕ) (c0 c1 : AudioChunk), c0.channels = c1.channels →
      ∃ out, stitchMLNoCrossfade ov [c0, c1] = .ok out ∧ out.sr = c0.sr) ∧
    (∀ (ov : ℕ) (c0 c1 : AudioChunk), c0.channels ≠ c1.channels →
      ov * c1.sr < c1.frames.length →
      stitchMLNoCrossfade ov [c0, c1] = .error .shapeMismatch) := by
  constructor
  · intro ov c0 c1 hch
    have hall : (((c0.channels, c0.frames) :: stitchBlocks ov [c1]).all
        (fun b => decide (b.1 = c0.channels))) = true := by
      rw [List.all_eq_true]
      intro b hb
      cases hb with
      | head => simp
      | tail _ h2 =>
        have hb1 := stitchBlocks_channels ov c1.channels [c1] (by simp) b h2
        simp [hb1, hch]
    exact ⟨⟨c0.sr, c0.channels,
        (((c0.channels, c0.frames) :: stitchBlocks ov [c1]).map (fun b => b.2)).flatten⟩,
      by simp only [stitchMLNoCrossfade]; rw [if_pos hall], rfl⟩
  · intro ov c0 c1 hch hlen
    have hblocks : stitchBlocks ov [c1] = [(c1.channels, trimFade ov c1)] := by
      simp only [stitchBlocks, if_pos hlen, List.singleton_append]
    simp only [stitchMLNoCrossfade, hblocks]
    rw [if_neg]
    simp only [List.all_cons, List.all_nil, Bool.and_true, Bool.and_eq_true,
      decide_eq_true_eq, not_and]
    intro
    exact fun hc => hch hc.symm

/-- Witness for C6: the sample-rate-mismatch call that completes, and a
channel-mismatch call that fails with the shape error. -/
theorem c6_no_format_check_witness :
    ((⟨2, 1, [[1], [2]]⟩ : AudioChunk).channels = (⟨1, 1, [[3], [4], [5]]⟩ : AudioChunk).channels) ∧
    (∃ out, stitchMLNoCrossfade 2 [⟨2, 1, [[1], [2]]⟩, ⟨1, 1, [[3], [4], [5]]⟩] = .ok out ∧
      out.sr = 2) ∧
    ((⟨1, 1, [[1]]⟩ : AudioChunk).channels ≠ (⟨1, 2, [[2, 2]]⟩ : AudioChunk).channels) ∧
    stitchMLNoCrossfade 0 [⟨1, 1, [[1]]⟩, ⟨1, 2, [[2, 2]]⟩] = .error .shapeMismatch :=
  ⟨rfl, c6_no_format_check.1 2 ⟨2, 1, [[1], [2]]⟩ ⟨1, 1, [[3], [4], [5]]⟩ rfl,
   by decide, c6_no_format_check.2 0 ⟨1, 1, [[1]]⟩ ⟨1, 2, [[2, 2]]⟩ (by decide) (by decide)⟩

/- ### Speaker-time mapping (scripts/enhanced_transcript_stitcher.py lines
94-122, and the identical scripts/speaker_embedding_stitcher.py lines
60-88).  Timestamps are rationals. -/

structure DiarizationSegment where
  speaker : String
  start_time : ℚ
  end_time : ℚ
  deriving Repr, DecidableEq

/-- The containment test of the first loop: `start_time <= t <= end_time`. -/
def segContains (s : DiarizationSegment) (t : ℚ) : Bool :=
  decide (s.start_time ≤ t ∧ t ≤ s.end_time)

/-- The key of the closest-segment search:
`min(abs(t - start_time), abs(t - end_time))`. -/
def edgeDist (t : ℚ) (s : DiarizationSegment) : ℚ :=
  min |t - s.start_time| |t - s.end_time|

/-- `find_speaker_at_time`: the first segment containing the timestamp wins;
otherwise, on a non-empty list, the first segment minimizing the nearer-edge
distance wins; the sentinel is returned only for an empty list. -/
def findSpeakerAtTime (segs : List DiarizationSegment) (t : ℚ) : String :=
  match segs.find? (fun s => segContains s t) with
  | some s => s.speaker
  | none =>
    match segs with
    | [] => "UNKNOWN"
    | s0 :: rest => (minByFold (edgeDist t) s0 rest).speaker

/-- First containing segment in list order: its speaker is returned. -/
theorem findSpeakerAtTime_of_containing (t : ℚ) :
    ∀ (pre post : List DiarizationSegment) (seg : DiarizationSegment),
      (∀ s ∈ pre, segContains s t = false) → segContains seg t = true →
      findSpeakerAtTime (pre ++ seg :: post) t = seg.speaker := by
  intro pre
  induction pre with
  | nil =>
    intro post seg hpre hseg
    unfold findSpeakerAtTime
    rw [List.nil_append,
      List.find?_cons_of_pos post
        (show (fun s : DiarizationSegment => segContains s t) seg = true from hseg)]
  | cons q pre2 ih =>
    intro post seg hpre hseg
    unfold findSpeakerAtTime
    rw [List.cons_append,
      List.find?_cons_of_neg (pre2 ++ seg :: post)
        (show ¬(fun s : DiarizationSegment => segContains s t) q = true by
          simp [hpre q (List.mem_cons_self q pre2)])]
    · have := ih post seg (fun s hs => hpre s (List.mem_cons_of_mem q hs)) hseg
      unfold findSpeakerAtTime at this
      cases hf : (pre2 ++ seg :: post).find? (fun s => segContains s t) with
      | some s2 => rw [hf] at this; exact this
      | none =>
        exfalso
        have := List.find?_eq_none.1 hf seg (by simp)
        simp [hseg] at this

/-- C4: the mapper resolves (1) by the first segment containing t, else
(2) by the segment whose nearer edge is closest to t, with ties on the
distance always won by the earliest such segment in the (sorted) list, and
(3) it returns the sentinel only on an empty segment list; a non-empty list
always yields the speaker of one of its segments. -/
theorem c4_speaker_time_mapper :
    (∀ (t : ℚ) (pre post : List DiarizationSegment) (seg : DiarizationSegment),
      (∀ s ∈ pre, segContains s t = false) → segContains seg t = true →
      findSpeakerAtTime (pre ++ seg :: post) t = seg.speaker) ∧
    (∀ t : ℚ, findSpeakerAtTime [] t = "UNKNOWN") ∧
    (∀ (t : ℚ) (s0 : DiarizationSegment) (rest : List DiarizationSegment),
      (∀ s ∈ s0 :: rest, segContains s t = false) →
      ∃ c pre post, s0 :: rest = pre ++ c :: post ∧
        findSpeakerAtTime (s0 :: rest) t = c.speaker ∧
        (∀ s ∈ s0 :: rest, edgeDist t c ≤ edgeDist t s) ∧
        (∀ s ∈ pre, edgeDist t c < edgeDist t s)) ∧
    (∀ (t : ℚ) (s0 : DiarizationSegment) (rest : List DiarizationSegment),
      ∃ s ∈ s0 :: rest, findSpeakerAtTime (s0 :: rest) t = s.speaker) := by
  refine ⟨findSpeakerAtTime_of_containing, fun t => rfl, ?_, ?_⟩
  · intro t s0 rest hnone
    have hfind : (s0 :: rest).find? (fun s => segContains s t) = none := by
      rw [List.find?_eq_none]
      intro x hx
      simp [hnone x hx]
    obtain ⟨pre, post, hdec, hmin, hpre⟩ := minByFold_decomp (edgeDist t) rest s0
    refine ⟨minByFold (edgeDist t) s0 rest, pre, post, hdec, ?_, hmin, hpre⟩
    unfold findSpeakerAtTime
    rw [hfind]
  · intro t s0 rest
    unfold findSpeakerAtTime
    cases hf : (s0 :: rest).find? (fun s => segContains s t) with
    | some s => exact ⟨s, List.mem_of_find?_eq_some hf, rfl⟩
    | none => exact ⟨minByFold (edgeDist t) s0 rest, minByFold_mem _ _ _, rfl⟩

/-- Witness for C4: diarization [A: 0-5, B: 5-10]; t=3 falls inside A, and
t=11 falls outside every segment and resolves to the closest segment B. -/
theorem c4_speaker_time_mapper_witness :
    (∀ s ∈ ([] : List DiarizationSegment), segContains s 3 = false) ∧
    segContains ⟨"A", 0, 5⟩ 3 = true ∧
    findSpeakerAtTime ([] ++ ⟨"A", 0, 5⟩ :: [⟨"B", 5, 10⟩]) 3 = "A" ∧
    (∀ s ∈ [(⟨"A", 0, 5⟩ : DiarizationSegment), ⟨"B", 5, 10⟩], segContains s 11 = false) ∧
    (∃ c pre post,
      [(⟨"A", 0, 5⟩ : DiarizationSegment), ⟨"B", 5, 10⟩] = pre ++ c :: post ∧
      findSpeakerAtTime [⟨"A", 0, 5⟩, ⟨"B", 5, 10⟩] 11 = c.speaker ∧
      (∀ s ∈ [(⟨"A", 0, 5⟩ : DiarizationSegment), ⟨"B", 5, 10⟩],
        edgeDist 11 c ≤ edgeDist 11 s) ∧
      (∀ s ∈ pre, edgeDist 11 c < edgeDist 11 s)) :=
  ⟨by decide, by decide,
   c4_speaker_time_mapper.1 3 [] [⟨"B", 5, 10⟩] ⟨"A", 0, 5⟩ (by decide) (by decide),
   by decide,
   c4_speaker_time_mapper.2.2.1 11 ⟨"A", 0, 5⟩ [⟨"B", 5, 10⟩] (by decide)⟩

/- ### Transcript reassembly, word-level path
(scripts/enhanced_transcript_stitcher.py lines 260-359). -/

structure Word where
  text : String
  wstart : ℚ
  wend : ℚ
  speaker : String
  deriving Repr, DecidableEq

structure TranscriptSegment where
  speaker : String
  start_time : ℚ
  end_time : ℚ
  text : String
  words : List Word
  deriving Repr, DecidableEq

/-- Continuing the current segment with one more word (lines 349-353). -/
def appendWordToSeg (seg : TranscriptSegment) (w : Word) : TranscriptSegment :=
  ⟨seg.speaker, seg.start_time, w.wend, seg.text ++ " " ++ w.text, seg.words ++ [w]⟩

/-- Opening a fresh segment at a word (lines 342-348). -/
def segOfWord (w : Word) : TranscriptSegment :=
  ⟨w.speaker, w.wstart, w.wend, w.text, [w]⟩

/-- The grouping loop of `create_diarized_transcript_from_words`: a new
segment starts exactly when the speaker changes. -/
def groupGo (cur : TranscriptSegment) : List Word → List TranscriptSegment
  | [] => [cur]
  | w :: ws =>
    if cur.speaker = w.speaker then groupGo (appendWordToSeg cur w) ws
    else cur :: groupGo (segOfWord w) ws

/-- `create_diarized_transcript_from_words` (lines 315-359). -/
def createDiarizedFromWords : List Word → List TranscriptSegment
  | [] => []
  | w :: ws => groupGo (segOfWord w) ws

/-- Stable ascending sort on word start times, modeling `words.sort(key=...)`. -/
def sortWords (ws : List Word) : List Word :=
  List.insertionSort (fun a b => a.wstart ≤ b.wstart) ws

/-- The time-overlap test of `map_words_to_diarization_segments`, line 292:
`word_start < segment_end and word_end > segment_start`. -/
def wordOverlapsSeg (w : Word) (seg : DiarizationSegment) : Bool :=
  decide (w.wstart < seg.end_time ∧ seg.start_time < w.wend)

/-- `map_words_to_diarization_segments` (lines 260-313): every word whose
span overlaps a diarization segment is put into that segment; a word
overlapping several segments is put into each of them, and a word
overlapping none is put nowhere. -/
def mapWordsToDiarizationSegments (words : List Word) (segs : List DiarizationSegment) :
    List TranscriptSegment :=
  if words.isEmpty || segs.isEmpty then []
  else
    let ws := sortWords words
    segs.filterMap (fun seg =>
      let sws := sortWords (ws.filter (fun w => wordOverlapsSeg w seg))
      if sws.isEmpty then none
      else some ⟨seg.speaker, seg.start_time, seg.end_time,
        String.intercalate " " (sws.map (fun w => w.text)), sws⟩)

/-- The choice in `stitch_chunks` (lines 393-399): with diarization segments
and words available, the final transcript maps words into diarization
segments; otherwise it groups the pooled words at speaker changes.  (The
source line spells the attribute `full_audio_diarization_segments`; the
intended attribute holding the loaded segments is modeled.) -/
def finalDiarizedTranscript (allWords : List Word) (segs : List DiarizationSegment) :
    List TranscriptSegment :=
  if segs.isEmpty || allWords.isEmpty then createDiarizedFromWords allWords
  else mapWordsToDiarizationSegments allWords segs

/-- Total number of words across the output segments. -/
def totalWordCount (ts : List TranscriptSegment) : ℕ :=
  (ts.map (fun s => s.words.length)).sum

/-- The first segment the grouping loop emits inherits the current
segment's speaker and start time. -/
theorem groupGo_head : ∀ (ws : List Word) (cur : TranscriptSegment),
    ∃ seg tail2, groupGo cur ws = seg :: tail2 ∧
      seg.speaker = cur.speaker ∧ seg.start_time = cur.start_time := by
  intro ws
  induction ws with
  | nil => intro cur; exact ⟨cur, [], rfl, rfl, rfl⟩
  | cons w ws2 ih =>
    intro cur
    by_cases h : cur.speaker = w.speaker
    · obtain ⟨seg, tail2, heq, hsp, hst⟩ := ih (appendWordToSeg cur w)
      exact ⟨seg, tail2, by simp only [groupGo, if_pos h]; exact heq, hsp, hst⟩
    · exact ⟨cur, groupGo (segOfWord w) ws2, by simp only [groupGo, if_neg h], rfl, rfl⟩

/-- The grouped segments' word lists concatenate back to the input. -/
theorem groupGo_flatten : ∀ (ws : List Word) (cur : TranscriptSegment),
    ((groupGo cur ws).map (fun s => s.words)).flatten = cur.words ++ ws := by
  intro ws
  induction ws with
  | nil => intro cur; simp [groupGo]
  | cons w ws2 ih =>
    intro cur
    by_cases h : cur.speaker = w.speaker
    · simp only [groupGo, if_pos h]
      rw [ih (appendWordToSeg cur w)]
      simp [appendWordToSeg]
    · simp only [groupGo, if_neg h, List.map_cons, List.flatten_cons]
      rw [ih (segOfWord w)]
      simp [segOfWord]

theorem groupGo_homogeneous : ∀ (ws : List Word) (cur : TranscriptSegment),
    (∀ w ∈ cur.words, w.speaker = cur.speaker) →
    ∀ seg ∈ groupGo cur ws, ∀ w ∈ seg.words, w.speaker = seg.speaker := by
  intro ws
  induction ws with
  | nil =>
    intro cur hcur seg hseg
    cases hseg with
    | head => exact hcur
    | tail _ h2 => cases h2
  | cons w ws2 ih =>
    intro cur hcur seg hseg
    by_cases h : cur.speaker = w.speaker
    · rw [groupGo, if_pos h] at hseg
      refine ih (appendWordToSeg cur w) ?_ seg hseg
      intro x hx
      rcases List.mem_append.1 hx with h1 | h2
      · exact hcur x h1
      · cases h2 with
        | head => exact h.symm
        | tail _ h3 => cases h3
    · rw [groupGo, if_neg h] at hseg
      cases hseg with
      | head => exact hcur
      | tail _ h2 =>
        refine ih (segOfWord w) ?_ seg h2
        intro x hx
        cases hx with
        | head => rfl
        | tail _ h3 => cases h3

theorem groupGo_boundaries : ∀ (ws : List Word) (cur : TranscriptSegment),
    (groupGo cur ws).Chain' (fun a b => a.speaker ≠ b.speaker) := by
  intro ws
  induction ws with
  | nil => intro cur; exact List.chain'_singleton cur
  | cons w ws2 ih =>
    intro cur
    by_cases h : cur.speaker = w.speaker
    · rw [groupGo, if_pos h]; exact ih (appendWordToSeg cur w)
    · rw [groupGo, if_neg h]
      obtain ⟨seg, tail2, heq, hsp, hst⟩ := groupGo_head ws2 (segOfWord w)
      rw [heq]
      refine List.chain'_cons.2 ⟨?_, heq ▸ ih (segOfWord w)⟩
      rw [hsp]
      exact h

theorem groupGo_chronological : ∀ (ws : List Word) (cur : TranscriptSegment),
    ws.Pairwise (fun a b => a.wstart ≤ b.wstart) →
    (∀ w ∈ ws, cur.start_time ≤ w.wstart) →
    (groupGo cur ws).Chain' (fun a b => a.start_time ≤ b.start_time) := by
  intro ws
  induction ws with
  | nil => intro cur _ _; exact List.chain'_singleton cur
  | cons w ws2 ih =>
    intro cur hsort hinv
    rw [List.pairwise_cons] at hsort
    by_cases h : cur.speaker = w.speaker
    · rw [groupGo, if_pos h]
      exact ih (appendWordToSeg cur w) hsort.2
        (fun x hx => hinv x (List.mem_cons_of_mem w hx))
    · rw [groupGo, if_neg h]
      obtain ⟨seg, tail2, heq, hsp, hst⟩ := groupGo_head ws2 (segOfWord w)
      rw [heq]
      refine List.chain'_cons.2 ⟨?_, heq ▸ ih (segOfWord w) hsort.2 hsort.1⟩
      rw [hst]
      exact hinv w (List.mem_cons_self w ws2)

/-- C5 counterexample: with diarization [A: 0-10, B: 10-20] available (times
in half-seconds: A is 0-5 s, B is 5-10 s), the reassembler maps the single
word spanning 4.5-5.5 s (9-11 half-seconds) into both segments: the output
carries 2 word occurrences for 1 input word, so the word count is not
preserved (and a word overlapping no segment would be dropped). -/
theorem c5_word_duplication_counterexample :
    totalWordCount (finalDiarizedTranscript [⟨"w", 9, 11, "X"⟩]
      [⟨"A", 0, 10⟩, ⟨"B", 10, 20⟩]) = 2 ∧
    ([⟨"w", 9, 11, "X"⟩] : List Word).length = 1 := by
  constructor
  · decide
  · rfl

/-- C5 (amended): the word-grouping path (`create_diarized_transcript_from_words`)
does satisfy the claim: the output segments' word lists concatenate back to
exactly the input sequence (no word dropped or duplicated, totals equal),
every segment is speaker-homogeneous, a new segment starts exactly at each
speaker change (adjacent segments differ in speaker; a lone word is a valid
one-word segment), and on chronologically sorted words the segments are
chronologically non-decreasing.  The diarization-mapping path used when a
full diarization is available does not: it duplicates boundary-straddling
words and drops words overlapping no segment. -/
theorem c5_word_grouping :
    (∀ ws : List Word,
      ((createDiarizedFromWords ws).map (fun s => s.words)).flatten = ws) ∧
    (∀ ws : List Word, totalWordCount (createDiarizedFromWords ws) = ws.length) ∧
    (∀ ws : List Word, ∀ seg ∈ createDiarizedFromWords ws,
      ∀ w ∈ seg.words, w.speaker = seg.speaker) ∧
    (∀ ws : List Word,
      (createDiarizedFromWords ws).Chain' (fun a b => a.speaker ≠ b.speaker)) ∧
    (∀ ws : List Word, ws.Pairwise (fun a b => a.wstart ≤ b.wstart) →
      (createDiarizedFromWords ws).Chain' (fun a b => a.start_time ≤ b.start_time)) := by
  have hflat : ∀ ws : List Word,
      ((createDiarizedFromWords ws).map (fun s => s.words)).flatten = ws := by
    intro ws
    cases ws with
    | nil => rfl
    | cons w ws2 =>
      rw [createDiarizedFromWords, groupGo_flatten]
      rfl
  refine ⟨hflat, ?_, ?_, ?_, ?_⟩
  · intro ws
    have hlen := congrArg List.length (hflat ws)
    rw [List.length_flatten, List.map_map] at hlen
    rw [← hlen]
    rfl
  · intro ws
    cases ws with
    | nil => intro seg hseg; cases hseg
    | cons w ws2 =>
      rw [createDiarizedFromWords]
      refine groupGo_homogeneous ws2 (segOfWord w) ?_
      intro x hx
      cases hx with
      | head => rfl
      | tail _ h2 => cases h2
  · intro ws
    cases ws with
    | nil => exact List.chain'_nil
    | cons w ws2 => exact groupGo_boundaries ws2 (segOfWord w)
  · intro ws hsort
    cases ws with
    | nil => exact List.chain'_nil
    | cons w ws2 =>
      rw [List.pairwise_cons] at hsort
      exact groupGo_chronological ws2 (segOfWord w) hsort.2 hsort.1

/-- Witness for C5: the two-word scenario (times in tenths of a second:
hi: 45-49 speaker A, bye: 51-55 speaker B) is sorted, groups into
chronologically ordered segments, and keeps both words. -/
theorem c5_word_grouping_witness :
    ([⟨"hi", 45, 49, "A"⟩, ⟨"bye", 51, 55, "B"⟩] : List Word).Pairwise
      (fun a b => a.wstart ≤ b.wstart) ∧
    (createDiarizedFromWords [⟨"hi", 45, 49, "A"⟩, ⟨"bye", 51, 55, "B"⟩]).Chain'
      (fun a b => a.start_time ≤ b.start_time) ∧
    totalWordCount (createDiarizedFromWords
      [⟨"hi", 45, 49, "A"⟩, ⟨"bye", 51, 55, "B"⟩]) =
      ([⟨"hi", 45, 49, "A"⟩, ⟨"bye", 51, 55, "B"⟩] : List Word).length :=
  ⟨by decide,
   c5_word_grouping.2.2.2.2 [⟨"hi", 45, 49, "A"⟩, ⟨"bye", 51, 55, "B"⟩] (by decide),
   c5_word_grouping.2.1 [⟨"hi", 45, 49, "A"⟩, ⟨"bye", 51, 55, "B"⟩]⟩

/- ### Transcript reassembly, text-only path
(scripts/transcript_stitcher.py lines 115-164 and 205-248).
Texts are modeled as character lists. -/

/-- Sentence-terminal characters of the split regex `[.!?]+`. -/
def isTermChar (c : Char) : Bool := c == '.' || c == '!' || c == '?'

/-- Split on every terminal character.  Combined with the strip-and-filter
below this equals splitting on maximal terminal runs, as the regex does. -/
def splitOnTerm : List Char → List (List Char)
  | [] => [[]]
  | c :: cs =>
    if isTermChar c then [] :: splitOnTerm cs
    else
      match splitOnTerm cs with
      | [] => [[c]]
      | s :: ss => (c :: s) :: ss

/-- Python `str.strip()`. -/
def stripChars (l : List Char) : List Char :=
  ((l.dropWhile Char.isWhitespace).reverse.dropWhile Char.isWhitespace).reverse

/-- The sentence list of `detect_overlap_boundary` lines 133-134: split on
terminal punctuation, strip, and keep the non-empty pieces. -/
def sentencesOf (txt : List Char) : List (List Char) :=
  ((splitOnTerm txt).map stripChars).filter (fun s => !s.isEmpty)

/-- `l[-n:]` on Python lists. -/
def lastN {α : Type} (n : ℕ) (l : List α) : List α := l.drop (l.length - n)

/-- The sentences searched for: the last 3 when there are at least 3,
otherwise the last 2 (line 140). -/
def searchSentences (c1 : List Char) : List (List Char) :=
  if 3 ≤ (sentencesOf c1).length then lastN 3 (sentencesOf c1)
  else lastN 2 (sentencesOf c1)

/-- Whether `needle` starts `hay`. -/
def isPrefixList : List Char → List Char → Bool
  | [], _ => true
  | _ :: _, [] => false
  | a :: as, b :: bs => a == b && isPrefixList as bs

/-- Python `str.find`: index of the first occurrence, if any. -/
def findSub (needle : List Char) : List Char → Option ℕ
  | [] => if needle.isEmpty then some 0 else none
  | c :: t =>
    if isPrefixList needle (c :: t) then some 0
    else (findSub needle t).map (fun p => p + 1)

/-- Python `needle in hay`. -/
def occursIn (needle hay : List Char) : Bool := (findSub needle hay).isSome

/-- The leading window of chunk 2 searched on line 144:
`chunk2_text[:len(search_text) + 100]`. -/
def searchWindow (c1 c2 : List Char) : List Char :=
  c2.take ((stripChars (List.intercalate [' '] (searchSentences c1))).length + 100)

/-- `TranscriptStitcher.detect_overlap_boundary` (lines 115-164): `none`
when chunk 1 has fewer than 2 sentences; else the end position of the first
occurrence of the first searched sentence found in the window; else the
estimated `min(int(overlap * 7.5), len(chunk2) // 4)`. -/
def detectOverlapBoundary (c1 c2 : List Char) (ov : ℕ) : Option ℕ :=
  if (sentencesOf c1).length < 2 then none
  else
    match (searchSentences c1).find? (fun s => occursIn s (searchWindow c1 c2)) with
    | some s => (findSub s c2).map (fun p => p + s.length)
    | none => some (min (ov * 15 / 2) (c2.length / 4))

/-- The per-pair trimming of `stitch_transcript_chunks` lines 222-236:
drop the detected boundary from the current chunk and strip, or keep the
chunk whole when no boundary was reported. -/
def applyOverlapTrim (prev cur : List Char) (ov : ℕ) : List Char :=
  match detectOverlapBoundary prev cur ov with
  | some e => stripChars (cur.drop e)
  | none => cur

/-- Modelled from the spec: the Path B boundary search as §4.6 words it --
find the longest of chunk i's last 2-3 sentences occurring verbatim in
chunk i+1's leading text and drop through its end, with the estimated drop
only when none occurs (and no fewer-than-2-sentences escape). -/
def detectOverlapBoundarySpecLongest (c1 c2 : List Char) (ov : ℕ) : Option ℕ :=
  match (searchSentences c1).filter (fun s => occursIn s (searchWindow c1 c2)) with
  | [] => some (min (ov * 15 / 2) (c2.length / 4))
  | m :: ms =>
    (findSub (minByFold (fun s : List Char => -(s.length : ℤ)) m ms) c2).map
      (fun p => p + (minByFold (fun s : List Char => -(s.length : ℤ)) m ms).length)

/-- A prefix of a truncated list is a prefix of the list. -/
theorem isPrefixList_take : ∀ (needle : List Char) (n : ℕ) (l : List Char),
    isPrefixList needle (l.take n) = true → isPrefixList needle l = true := by
  intro needle
  induction needle with
  | nil => intro n l h; rfl
  | cons a as ih =>
    intro n l h
    cases l with
    | nil => rw [List.take_nil] at h; simp [isPrefixList] at h
    | cons c t =>
      cases n with
      | zero => rw [List.take_zero] at h; simp [isPrefixList] at h
      | succ m =>
        rw [List.take_succ_cons] at h
        simp only [isPrefixList, Bool.and_eq_true] at h ⊢
        exact ⟨h.1, ih m t h.2⟩

/-- An occurrence inside a leading window is an occurrence in the text. -/
theorem findSub_take_isSome (needle : List Char) :
    ∀ (l : List Char) (n : ℕ),
      (findSub needle (l.take n)).isSome = true → (findSub needle l).isSome = true := by
  intro l
  induction l with
  | nil => intro n h; rw [List.take_nil] at h; exact h
  | cons c t ih =>
    intro n h
    cases n with
    | zero =>
      rw [List.take_zero] at h
      cases needle with
      | nil => simp [findSub, isPrefixList]
      | cons a as => simp [findSub] at h
    | succ m =>
      rw [List.take_succ_cons] at h
      simp only [findSub] at h ⊢
      by_cases hp : isPrefixList needle (c :: List.take m t) = true
      · have hq := isPrefixList_take needle (m + 1) (c :: t)
          (by rw [List.take_succ_cons]; exact hp)
        rw [if_pos hq]
        simp
      · rw [if_neg hp] at h
        have h2 : (findSub needle (t.take m)).isSome = true := by
          cases hf : findSub needle (t.take m) with
          | some p => simp
          | none => rw [hf] at h; simp at h
        have h3 := ih m h2
        by_cases hq : isPrefixList needle (c :: t) = true
        · rw [if_pos hq]; simp
        · rw [if_neg hq]
          cases hg : findSub needle t with
          | some p => simp
          | none => rw [hg] at h3; simp at h3

/-- C9 counterexample: the boundary search is not a longest-match search,
and it does not fall back to the estimated drop when chunk 1 has fewer than
two sentences.  On chunk1 = "a. bb cc dd." and chunk2 = "a bb cc dd. hello"
the code matches the earlier one-character sentence "a" and drops 1
character, while the longest matching sentence "bb cc dd" ends at position
10; on a one-sentence chunk1 = "hello" the code reports no boundary at all
(chunk 2 is kept whole), while the spec's fallback would drop
min(30 * 7.5, len/4) = 4 characters. -/
theorem c9_boundary_counterexample :
    detectOverlapBoundary ("a. bb cc dd.".data) ("a bb cc dd. hello".data) 30 = some 1 ∧
    detectOverlapBoundarySpecLongest ("a. bb cc dd.".data) ("a bb cc dd. hello".data) 30 =
      some 10 ∧
    detectOverlapBoundary ("hello".data) ("hello there world".data) 30 = none ∧
    detectOverlapBoundarySpecLongest ("hello".data) ("hello there world".data) 30 = some 5 := by
  refine ⟨by decide, by decide, by decide, by decide⟩

/-- C9 (amended): with at least two sentences in chunk i, the reassembler
searches chunk i+1's leading window for chunk i's last 2-3 sentences one at
a time, earliest first, and drops chunk i+1's text up to and including the
end of the first occurrence of the first sentence found (not the longest);
when no searched sentence occurs it drops
`min(overlap_duration * 7.5, len(chunk i+1) / 4)` characters; and with
fewer than two sentences in chunk i it reports no boundary and chunk i+1 is
kept whole. -/
theorem c9_overlap_boundary :
    (∀ (c1 c2 : List Char) (ov : ℕ), (sentencesOf c1).length < 2 →
      detectOverlapBoundary c1 c2 ov = none) ∧
    (∀ (c1 c2 : List Char) (ov : ℕ) (s : List Char),
      2 ≤ (sentencesOf c1).length →
      (searchSentences c1).find? (fun x => occursIn x (searchWindow c1 c2)) = some s →
      s ∈ searchSentences c1 ∧ occursIn s (searchWindow c1 c2) = true ∧
      ∃ p, findSub s c2 = some p ∧ detectOverlapBoundary c1 c2 ov = some (p + s.length)) ∧
    (∀ (c1 c2 : List Char) (ov : ℕ), 2 ≤ (sentencesOf c1).length →
      (searchSentences c1).find? (fun x => occursIn x (searchWindow c1 c2)) = none →
      detectOverlapBoundary c1 c2 ov = some (min (ov * 15 / 2) (c2.length / 4))) ∧
    (∀ (prev cur : List Char) (ov e : ℕ), detectOverlapBoundary prev cur ov = some e →
      applyOverlapTrim prev cur ov = stripChars (cur.drop e)) ∧
    (∀ (prev cur : List Char) (ov : ℕ), detectOverlapBoundary prev cur ov = none →
      applyOverlapTrim prev cur ov = cur) := by
  refine ⟨?_, ?_, ?_, ?_, ?_⟩
  · intro c1 c2 ov h
    unfold detectOverlapBoundary
    rw [if_pos h]
  · intro c1 c2 ov s hlen hfind
    have hocc2 :=
      @List.find?_some (List Char) (fun x => occursIn x (searchWindow c1 c2)) s
        (searchSentences c1) hfind
    refine ⟨List.mem_of_find?_eq_some hfind, hocc2, ?_⟩
    have hocc : (findSub s (searchWindow c1 c2)).isSome = true := hocc2
    have hsome : (findSub s c2).isSome = true := findSub_take_isSome s c2 _ hocc
    cases hp : findSub s c2 with
    | some p =>
      refine ⟨p, rfl, ?_⟩
      unfold detectOverlapBoundary
      rw [if_neg (Nat.not_lt.2 hlen), hfind]
      show Option.map (fun q => q + s.length) (findSub s c2) = some (p + s.length)
      rw [hp]
      rfl
    | none => rw [hp] at hsome; cases hsome
  · intro c1 c2 ov hlen hfind
    unfold detectOverlapBoundary
    rw [if_neg (Nat.not_lt.2 hlen), hfind]
  · intro prev cur ov e h
    unfold applyOverlapTrim
    rw [h]
  · intro prev cur ov h
    unfold applyOverlapTrim
    rw [h]

/-- Witness for C9: the concrete adjacent pair from the counterexample, on
which the search finds the sentence "a" and the trim drops one character. -/
theorem c9_overlap_boundary_witness :
    2 ≤ (sentencesOf ("a. bb cc dd.".data)).length ∧
    (searchSentences ("a. bb cc dd.".data)).find?
      (fun x => occursIn x (searchWindow ("a. bb cc dd.".data) ("a bb cc dd. hello".data))) =
      some ("a".data) ∧
    ("a".data ∈ searchSentences ("a. bb cc dd.".data) ∧
      occursIn ("a".data) (searchWindow ("a. bb cc dd.".data) ("a bb cc dd. hello".data)) = true ∧
      ∃ p, findSub ("a".data) ("a bb cc dd. hello".data) = some p ∧
        detectOverlapBoundary ("a. bb cc dd.".data) ("a bb cc dd. hello".data) 30 =
          some (p + ("a".data).length)) :=
  ⟨by decide, by decide,
   c9_overlap_boundary.2.1 ("a. bb cc dd.".data) ("a bb cc dd. hello".data) 30 ("a".data)
     (by decide) (by decide)⟩

/- ### Monotonicity of the boundary search, and the progress property -/

theorem pydist_le_iff {a b d : ℕ} : pydist a b ≤ d ↔ a ≤ b + d ∧ b ≤ a + d := by
  unfold pydist
  omega

/-- Characterization of a successful boundary search: the result is a
candidate within the window, minimizes the distance to the target, and on
a sorted candidate list ties go to the smallest candidate. -/
theorem findOptimalSplitPoint_spec (t m : ℕ) (B : List ℕ) {x : ℕ} (hx : x ∈ B)
    (hd : pydist x t ≤ m) :
    findOptimalSplitPoint t B m ∈ B ∧ pydist (findOptimalSplitPoint t B m) t ≤ m ∧
    (∀ b ∈ B, pydist b t ≤ m → pydist (findOptimalSplitPoint t B m) t ≤ pydist b t) ∧
    (B.Pairwise (· ≤ ·) → ∀ b ∈ B, pydist b t ≤ m →
      pydist (findOptimalSplitPoint t B m) t = pydist b t →
      findOptimalSplitPoint t B m ≤ b) := by
  have hxval : x ∈ B.filter (fun b => decide (pydist b t ≤ m)) :=
    List.mem_filter.2 ⟨hx, by simp [hd]⟩
  unfold findOptimalSplitPoint
  cases hF : B.filter (fun b => decide (pydist b t ≤ m)) with
  | nil => rw [hF] at hxval; cases hxval
  | cons v vs =>
    obtain ⟨pre, post, hdec, hmin, hpre⟩ := minByFold_decomp (fun b => pydist b t) vs v
    have hFmemval : minByFold (fun b => pydist b t) v vs ∈ v :: vs := by
      rw [hdec]
      exact List.mem_append_right pre (List.mem_cons_self _ _)
    have hFfil : minByFold (fun b => pydist b t) v vs ∈
        B.filter (fun b => decide (pydist b t ≤ m)) := by
      rw [hF]; exact hFmemval
    have hFmem : minByFold (fun b => pydist b t) v vs ∈ B := List.mem_of_mem_filter hFfil
    have hFd : pydist (minByFold (fun b => pydist b t) v vs) t ≤ m := by
      have := (List.mem_filter.1 hFfil).2
      simpa using this
    refine ⟨hFmem, hFd, ?_, ?_⟩
    · intro b hb hbd
      have hbval : b ∈ v :: vs := by
        rw [← hF]
        exact List.mem_filter.2 ⟨hb, by simp [hbd]⟩
      exact hmin b hbval
    · intro hsort b hb hbd htie
      have hpw : (v :: vs).Pairwise (· ≤ ·) := by
        rw [← hF]
        exact hsort.filter _
      have hbval : b ∈ v :: vs := by
        rw [← hF]
        exact List.mem_filter.2 ⟨hb, by simp [hbd]⟩
      rw [hdec] at hbval hpw
      rcases List.mem_append.1 hbval with hbpre | hbrest
      · exact absurd htie (Nat.ne_of_lt (hpre b hbpre))
      · cases hbrest with
        | head => exact le_refl _
        | tail _ hbpost =>
          have hFpost := (List.pairwise_append.1 hpw).2.1
          exact (List.pairwise_cons.1 hFpost).1 b hbpost

/-- A failed search (no candidate in the window) returns the target. -/
theorem findOptimalSplitPoint_of_empty (t m : ℕ) (B : List ℕ)
    (h : ∀ b ∈ B, ¬ pydist b t ≤ m) : findOptimalSplitPoint t B m = t := by
  have hF : B.filter (fun b => decide (pydist b t ≤ m)) = [] := by
    rw [List.filter_eq_nil_iff]
    intro b hb
    simp [h b hb]
  unfold findOptimalSplitPoint
  rw [hF]

/-- On a sorted candidate list, the chosen split point is a monotone
function of the target.  This is the crux of the progress analysis: once an
iteration fails to advance, no later iteration can advance past it. -/
theorem findOptimalSplitPoint_mono {B : List ℕ} (hsort : B.Pairwise (· ≤ ·)) (m : ℕ)
    {t t' : ℕ} (htt : t ≤ t') :
    findOptimalSplitPoint t B m ≤ findOptimalSplitPoint t' B m := by
  by_cases h1 : ∃ b ∈ B, pydist b t ≤ m
  · obtain ⟨x, hx, hxd⟩ := h1
    obtain ⟨hcmem, hcd, hcmin, hctie⟩ := findOptimalSplitPoint_spec t m B hx hxd
    by_cases h2 : ∃ b ∈ B, pydist b t' ≤ m
    · obtain ⟨y, hy, hyd⟩ := h2
      obtain ⟨hcmem', hcd', hcmin', hctie'⟩ := findOptimalSplitPoint_spec t' m B hy hyd
      by_contra hlt
      push_neg at hlt
      have hc'c : findOptimalSplitPoint t' B m < findOptimalSplitPoint t B m := hlt
      have hcle := pydist_le_iff.1 hcd
      have hcle' := pydist_le_iff.1 hcd'
      have hc'val : pydist (findOptimalSplitPoint t' B m) t ≤ m := by
        rw [pydist_le_iff]
        omega
      have hcval' : pydist (findOptimalSplitPoint t B m) t' ≤ m := by
        rw [pydist_le_iff]
        omega
      have hminc := hcmin _ hcmem' hc'val
      have htiec := hctie hsort _ hcmem' hc'val
      have hminc' := hcmin' _ hcmem hcval'
      have hstrict : pydist (findOptimalSplitPoint t B m) t <
          pydist (findOptimalSplitPoint t' B m) t := by
        rcases Nat.lt_or_ge (pydist (findOptimalSplitPoint t B m) t)
            (pydist (findOptimalSplitPoint t' B m) t) with h | h
        · exact h
        · have heq : pydist (findOptimalSplitPoint t B m) t =
              pydist (findOptimalSplitPoint t' B m) t := le_antisymm hminc h
          exact absurd (htiec heq) (Nat.not_le.2 hc'c)
      unfold pydist at hstrict hminc'
      omega
    · push_neg at h2
      have hFt' : findOptimalSplitPoint t' B m = t' :=
        findOptimalSplitPoint_of_empty t' m B (fun b hb => Nat.not_le.2 (h2 b hb))
      rw [hFt']
      by_contra hgt
      push_neg at hgt
      have hcle := pydist_le_iff.1 hcd
      have : pydist (findOptimalSplitPoint t B m) t' ≤ m := by
        rw [pydist_le_iff]
        omega
      exact absurd this (Nat.not_le.2 (h2 _ hcmem))
  · push_neg at h1
    have hFt : findOptimalSplitPoint t B m = t :=
      findOptimalSplitPoint_of_empty t m B (fun b hb => Nat.not_le.2 (h1 b hb))
    rw [hFt]
    by_cases h2 : ∃ b ∈ B, pydist b t' ≤ m
    · obtain ⟨y, hy, hyd⟩ := h2
      obtain ⟨hcmem', hcd', -, -⟩ := findOptimalSplitPoint_spec t' m B hy hyd
      by_contra hgt
      push_neg at hgt
      have hcle' := pydist_le_iff.1 hcd'
      have : pydist (findOptimalSplitPoint t' B m) t ≤ m := by
        rw [pydist_le_iff]
        omega
      exact absurd this (Nat.not_le.2 (h1 _ hcmem'))
    · push_neg at h2
      rw [findOptimalSplitPoint_of_empty t' m B (fun b hb => Nat.not_le.2 (h2 b hb))]
      exact htt

/-- The boundary search cannot leave the file when all candidates are
inside it and the target is inside it. -/
theorem findOptimalSplitPoint_le {T t m : ℕ} {B : List ℕ} (hB : ∀ b ∈ B, b ≤ T)
    (ht : t ≤ T) : findOptimalSplitPoint t B m ≤ T := by
  cases findOptimalSplitPoint_mem_or_target t B m with
  | inl hmem => exact hB _ hmem
  | inr heq => rw [heq]; exact ht

/-- The selected split is a monotone function of the chunk start. -/
theorem nextSplit_mono {T d m : ℕ} {B : List ℕ} (hsort : B.Pairwise (· ≤ ·))
    (hB : ∀ b ∈ B, b ≤ T) {s s' : ℕ} (h : s ≤ s') :
    nextSplit T d m B s ≤ nextSplit T d m B s' := by
  unfold nextSplit
  by_cases h1 : T ≤ s + d
  · rw [if_pos h1, if_pos (by omega)]
  · rw [if_neg h1]
    by_cases h2 : T ≤ s' + d
    · rw [if_pos h2]
      exact findOptimalSplitPoint_le hB (by omega)
    · rw [if_neg h2]
      exact findOptimalSplitPoint_mono hsort m (by omega)

/-- Once an iteration fails to advance past `s1`, the loop never emits a
complete plan: every later start stays at or below `s1` and the runaway
guard (or the fuel bound) fires. -/
theorem splitLoop_stuck {T d o m : ℕ} {B : List ℕ} {cap : ℕ}
    (hsort : B.Pairwise (· ≤ ·)) (hB : ∀ b ∈ B, b ≤ T) :
    ∀ (fuel : ℕ) {s idx s1 : ℕ}, s ≤ s1 → s1 < T → nextSplit T d m B s1 ≤ s1 →
      ∀ l : List ChunkPlanEntry, splitLoop T d o m B cap s idx fuel = .ok l → False := by
  intro fuel
  induction fuel with
  | zero => intro s idx s1 h1 h2 h3 l h; cases h
  | succ n ih =>
    intro s idx s1 h1 h2 h3 l h
    cases l with
    | nil =>
      have := splitLoop_ok_nil h
      omega
    | cons e rest =>
      obtain ⟨hs, -, -, hrest⟩ := splitLoop_ok_cons h
      have hnext : nextSplit T d m B s ≤ s1 :=
        le_trans (nextSplit_mono hsort hB h1) h3
      exact ih hnext h2 h3 rest hrest

/-- Every entry of an emitted plan advances: its split point strictly
exceeds its start sample.  (A non-advancing selection would trap the loop
below the file end and end in the runaway error, never in a plan.) -/
theorem splitLoop_ok_progress {T d o m : ℕ} {B : List ℕ} {cap : ℕ}
    (hsort : B.Pairwise (· ≤ ·)) (hB : ∀ b ∈ B, b ≤ T) :
    ∀ (fuel : ℕ) {s idx : ℕ} {l : List ChunkPlanEntry},
      splitLoop T d o m B cap s idx fuel = .ok l →
      ∀ e ∈ l, e.start_sample < e.actual_split_sample := by
  intro fuel
  induction fuel with
  | zero => intro s idx l h; cases h
  | succ n ih =>
    intro s idx l h e he
    cases l with
    | nil => cases he
    | cons a rest =>
      obtain ⟨hs, -, ha, hrest⟩ := splitLoop_ok_cons h
      cases he with
      | head =>
        subst ha
        show s < nextSplit T d m B s
        by_contra hn
        push_neg at hn
        exact splitLoop_stuck hsort hB n hn hs hn rest hrest
      | tail _ hmem => exact ih hrest e hmem

theorem entryEnd_bounds {T o split : ℕ} (h : split ≤ T) :
    split ≤ entryEnd T o split ∧ entryEnd T o split ≤ T := by
  unfold entryEnd
  split_ifs <;> omega

/-- C7 counterexample: at start 0 with arithmetic target 1 and silence
candidates {0, 10} within the deviation window, the boundary search selects
the candidate 0, which does not strictly exceed the start, and it is not
replaced by the arithmetic target 1: the planner keeps the non-advancing
candidate and the whole run aborts through the runaway guard instead of
emitting a plan. -/
theorem c7_no_fallback_counterexample :
    findOptimalSplitPoint (0 + 1) [0, 10] 15 = 0 ∧
    ¬ (0 : ℕ) < 0 ∧ (0 : ℕ) ≠ 0 + 1 ∧
    smartSplit 10 1 0 15 [0, 10] = .error .runaway := by
  refine ⟨by decide, by decide, by decide, ?_⟩
  have hstuck : ∀ l : List ChunkPlanEntry, smartSplit 10 1 0 15 [0, 10] = .ok l → False := by
    intro l hl
    exact splitLoop_stuck (by decide) (by decide) 1001 (le_refl 0) (by decide)
      (by decide) l hl
  have hnf : smartSplit 10 1 0 15 [0, 10] ≠ .error .fuelOut :=
    splitLoop_no_fuelOut 1001 (by omega) (by omega)
  cases hres : smartSplit 10 1 0 15 [0, 10] with
  | ok l => exact absurd hres (fun hc => hstuck l hc)
  | error e =>
    cases e with
    | runaway => rfl
    | fuelOut => exact absurd hres hnf

/-- C7 (amended): in every plan the planner actually emits, each entry's
split point strictly exceeds its start sample -- but not thanks to a
fallback: no fallback to the arithmetic target exists, and a run in which
the boundary search selects a candidate at or before the start never emits
a plan, aborting through the runaway guard instead. -/
theorem c7_progress_guarantee :
    ∀ (T d o m : ℕ) (B : List ℕ) (plan : List ChunkPlanEntry),
      B.Pairwise (· ≤ ·) → (∀ b ∈ B, b ≤ T) → smartSplit T d o m B = .ok plan →
      ∀ e ∈ plan, e.start_sample < e.actual_split_sample := by
  intro T d o m B plan hsort hB hok
  exact splitLoop_ok_progress hsort hB 1001 hok

/-- Witness for C7: a concrete emitted plan whose entries all advance. -/
theorem c7_progress_guarantee_witness :
    ([] : List ℕ).Pairwise (· ≤ ·) ∧ (∀ b ∈ ([] : List ℕ), b ≤ 3) ∧
    smartSplit 3 2 1 0 [] = .ok [⟨0, 0, 2, 3⟩, ⟨1, 2, 3, 3⟩] ∧
    (∀ e ∈ ([⟨0, 0, 2, 3⟩, ⟨1, 2, 3, 3⟩] : List ChunkPlanEntry),
      e.start_sample < e.actual_split_sample) :=
  ⟨by simp, by simp, by decide,
   c7_progress_guarantee 3 2 1 0 [] [⟨0, 0, 2, 3⟩, ⟨1, 2, 3, 3⟩] (by simp) (by simp) (by decide)⟩

/-- C1: every emitted plan is well-formed.  For the silence-aware planner:
adjacent entries chain (entry i's split point is entry i+1's start), the
plan starts at sample 0, the last split point is the file end (so the
no-overlap spans tile [0, total_samples)), a positive-length input yields a
non-empty plan, and for any source buffer the part of each materialized
chunk after its split point is index-identical to the leading samples of
the next materialized chunk.  The same holds for the sample-accurate
planner, whose implicit split points are `start_sample + chunkS`. -/
theorem c1_partition_and_overlap_identity :
    (∀ (T d o m : ℕ) (B : List ℕ) (plan : List ChunkPlanEntry),
      B.Pairwise (· ≤ ·) → (∀ b ∈ B, b ≤ T) → o < d →
      smartSplit T d o m B = .ok plan →
      plan.Chain' (fun a b => b.start_sample = a.actual_split_sample) ∧
      (∀ hne : plan ≠ [], (plan.head hne).start_sample = 0 ∧
        (plan.getLast hne).actual_split_sample = T) ∧
      (0 < T → plan ≠ []) ∧
      (∀ (α : Type) (audio : List α), audio.length = T →
        plan.Chain' (fun a b =>
          (chunkSlice audio a).drop (a.actual_split_sample - a.start_sample) =
            (chunkSlice audio b).take (a.end_sample - a.actual_split_sample)))) ∧
    (∀ (T c o : ℕ) (plan : List SampleChunkEntry),
      o < c → sampleAccurateSplit T c o = .ok plan →
      plan.Chain' (fun a b => b.start_sample = a.start_sample + c) ∧
      (∀ hne : plan ≠ [], (plan.head hne).start_sample = 0 ∧
        (plan.getLast hne).end_sample = T) ∧
      (0 < T → plan ≠ []) ∧
      (∀ (α : Type) (audio : List α), audio.length = T →
        plan.Chain' (fun a b =>
          (chunkSliceSA audio a).drop c =
            (chunkSliceSA audio b).take (a.end_sample - (a.start_sample + c))))) := by
  constructor
  · intro T d o m B plan hsort hB hov hok
    have hchain := splitLoop_ok_chain 1001 hok
    refine ⟨hchain.imp (fun a b h => h.1), ?_, ?_, ?_⟩
    · intro hne
      refine ⟨?_, splitLoop_ok_last hB 1001 hok hne⟩
      cases plan with
      | nil => exact absurd rfl hne
      | cons a rest =>
        rw [List.head_cons]
        exact (splitLoop_ok_head hok).1
    · intro hT hnil
      subst hnil
      have := splitLoop_ok_nil hok
      omega
    · intro α audio hlen
      rw [List.chain'_iff_get]
      intro i hi
      have hi1 : i < plan.length := by omega
      have hi2 : i + 1 < plan.length := by omega
      have hab := ((List.chain'_iff_get.1 hchain) i hi).1
      have hentA := splitLoop_ok_entries 1001 hok _ (plan.get_mem i hi1)
      have hentB := splitLoop_ok_entries 1001 hok _ (plan.get_mem (i + 1) hi2)
      have hprogA := splitLoop_ok_progress hsort hB 1001 hok _ (plan.get_mem i hi1)
      have hprogB := splitLoop_ok_progress hsort hB 1001 hok _ (plan.get_mem (i + 1) hi2)
      have hsplA_le : (plan.get ⟨i, hi1⟩).actual_split_sample ≤ T := by
        rw [hentA.2.1]
        exact nextSplit_le hB _
      have hsplB_le : (plan.get ⟨i + 1, hi2⟩).actual_split_sample ≤ T := by
        rw [hentB.2.1]
        exact nextSplit_le hB _
      have hsplA_lt : (plan.get ⟨i, hi1⟩).actual_split_sample < T := by
        rw [← hab]
        exact hentB.1
      have hsplAB : (plan.get ⟨i, hi1⟩).actual_split_sample <
          (plan.get ⟨i + 1, hi2⟩).actual_split_sample := by
        rw [← hab]
        exact hprogB
      have h2 : (plan.get ⟨i, hi1⟩).actual_split_sample ≤ (plan.get ⟨i, hi1⟩).end_sample := by
        rw [hentA.2.2]
        exact (entryEnd_bounds hsplA_le).1
      have h3 : (plan.get ⟨i, hi1⟩).end_sample ≤ (plan.get ⟨i + 1, hi2⟩).end_sample := by
        rw [hentA.2.2, hentB.2.2]
        unfold entryEnd
        split_ifs <;> omega
      exact chunkSliceAt_overlap audio (le_of_lt hprogA) h2 h3 hab
  · intro T c o plan hov hok
    have hchain := sampleLoop_ok_chain 1001 hok
    refine ⟨hchain.imp (fun a b h => h.1), ?_, ?_, ?_⟩
    · intro hne
      refine ⟨?_, (sampleLoop_ok_last 1001 hok hne).1⟩
      cases plan with
      | nil => exact absurd rfl hne
      | cons a rest =>
        rw [List.head_cons]
        exact (sampleLoop_ok_head hok).1
    · intro hT hnil
      subst hnil
      have := sampleLoop_ok_nil hok
      omega
    · intro α audio hlen
      rw [List.chain'_iff_get]
      intro i hi
      have hi1 : i < plan.length := by omega
      have hi2 : i + 1 < plan.length := by omega
      have hab := ((List.chain'_iff_get.1 hchain) i hi).1
      have hentA := sampleLoop_ok_entries 1001 hok _ (plan.get_mem i hi1)
      have hentB := sampleLoop_ok_entries 1001 hok _ (plan.get_mem (i + 1) hi2)
      have hacT : (plan.get ⟨i, hi1⟩).start_sample + c < T := by
        rw [← hab]
        exact hentB.1
      have h2 : (plan.get ⟨i, hi1⟩).start_sample + c ≤ (plan.get ⟨i, hi1⟩).end_sample := by
        rw [hentA.2]
        unfold sampleEnd
        split_ifs <;> omega
      have h3 : (plan.get ⟨i, hi1⟩).end_sample ≤ (plan.get ⟨i + 1, hi2⟩).end_sample := by
        rw [hentA.2, hentB.2]
        unfold sampleEnd
        split_ifs <;> omega
      have hident := chunkSliceAt_overlap audio
        (Nat.le_add_right (plan.get ⟨i, hi1⟩).start_sample c) h2 h3 hab
      rw [Nat.add_sub_cancel_left] at hident
      exact hident

/-- Witness for C1: the planners' concrete plans from the C2 scenario
discharge every hypothesis; one instantiated consequence each. -/
theorem c1_partition_and_overlap_identity_witness :
    ([] : List ℕ).Pairwise (· ≤ ·) ∧ (∀ b ∈ ([] : List ℕ), b ≤ 3) ∧ 1 < 2 ∧
    smartSplit 3 2 1 0 [] = .ok [⟨0, 0, 2, 3⟩, ⟨1, 2, 3, 3⟩] ∧
    ([⟨0, 0, 2, 3⟩, ⟨1, 2, 3, 3⟩] : List ChunkPlanEntry).Chain'
      (fun a b => b.start_sample = a.actual_split_sample) ∧
    1 < 2 ∧ sampleAccurateSplit 5 2 1 = .ok [⟨0, 0, 3⟩, ⟨1, 2, 5⟩, ⟨2, 4, 5⟩] ∧
    ([⟨0, 0, 3⟩, ⟨1, 2, 5⟩, ⟨2, 4, 5⟩] : List SampleChunkEntry).Chain'
      (fun a b => b.start_sample = a.start_sample + 2) :=
  ⟨by simp, by simp, by omega, by decide,
   (c1_partition_and_overlap_identity.1 3 2 1 0 [] [⟨0, 0, 2, 3⟩, ⟨1, 2, 3, 3⟩]
     (by simp) (by simp) (by omega) (by decide)).1,
   by omega, by decide,
   (c1_partition_and_overlap_identity.2 5 2 1 [⟨0, 0, 3⟩, ⟨1, 2, 5⟩, ⟨2, 4, 5⟩]
     (by omega) (by decide)).1⟩
